import Mathlib

/-!
# ARM disassembly simulator: decoder and execution engine

Shallow embedding of `code.c` (operand and instruction decoder) and `machine.c`
(execution engine).

Conventions of the embedding.

* A C `char` is its byte code, a natural number; `cstr "x0"` is the list of the
  byte codes of a string literal.
* A `char *` argument is the list of the bytes from the pointer to the end of
  the enclosing array.  Reading `str[i]` is `str[i]?`; a read outside the list
  is undefined behaviour and makes the function return `none`.  A C string is
  therefore passed as `tok ++ [0]`, or as `tok ++ 0 :: rest` when more bytes of
  the same array follow the terminator.
* A function that writes through its `char *` argument returns the buffer
  after the call next to its result.
* A local variable that C leaves uninitialised is a parameter of the function
  (`operand` in `parse_operand`, `instruction` and the stream `junk` of
  uninitialised operand values in `parse_instruction`).
* Unsigned machine integers are natural numbers reduced modulo `2 ^ w`
  wherever the C arithmetic wraps.
-/

namespace ArmSim

/-! ## Constants of code.h -/

abbrev OPERATION_add : Nat := 0x00646461
abbrev OPERATION_sub : Nat := 0x00627573
abbrev OPERATION_lsl : Nat := 0x006C736C
abbrev OPERATION_lsr : Nat := 0x0072736C
abbrev OPERATION_and : Nat := 0x00646E61
abbrev OPERATION_orr : Nat := 0x0072726F
abbrev OPERATION_ldr : Nat := 0x0072646C
abbrev OPERATION_str : Nat := 0x00727473
abbrev OPERATION_mov : Nat := 0x00766F6D
abbrev OPERATION_ret : Nat := 0x00746572
abbrev OPERATION_b : Nat := 0x00000062
abbrev OPERATION_bl : Nat := 0x00006C62
abbrev OPERATION_cmp : Nat := 0x00706D63
abbrev OPERATION_bne : Nat := 0x656E2E62
abbrev OPERATION_beq : Nat := 0x71652E62
abbrev OPERATION_blt : Nat := 0x746C2E62
abbrev OPERATION_bgt : Nat := 0x74672E62
abbrev OPERATION_ble : Nat := 0x656C2E62
abbrev OPERATION_bge : Nat := 0x65672E62
abbrev OPERATION_nop : Nat := 0x00706F6E
abbrev OPERATION_NULL : Nat := 0x0

/-- The byte 'r'. -/
abbrev OPERAND_register : Nat := 114
/-- The byte '#'. -/
abbrev OPERAND_constant : Nat := 35
/-- The byte '['. -/
abbrev OPERAND_memory : Nat := 91
/-- The byte 'a'. -/
abbrev OPERAND_address : Nat := 97
/-- The byte NUL. -/
abbrev OPERAND_NULL : Nat := 0

/-- The byte 'w'. -/
abbrev REGISTER_w : Nat := 119
/-- The byte 'x'. -/
abbrev REGISTER_x : Nat := 120
/-- The byte 's'. -/
abbrev REGISTER_sp : Nat := 115
/-- The byte 'p'. -/
abbrev REGISTER_pc : Nat := 112

/-- Byte codes of a string literal. -/
def cstr (s : String) : List Nat := s.toList.map Char.toNat

/-! ## Data model of code.h -/

/-- The struct operand_t: type, reg_type (char), reg_num (uint8_t),
constant (uint32_t). -/
structure operand_t where
  type : Nat
  reg_type : Nat
  reg_num : Nat
  constant : Nat
deriving DecidableEq, Repr

/-- The struct instruction_t: the packed mnemonic and the array operands[3]. -/
structure instruction_t where
  operation : Nat
  operands : Fin 3 → operand_t

/-! ## C library functions used by the decoder -/

/-- The C library isspace in the C locale: space, and the codes 9 to 13. -/
def isspace (c : Nat) : Bool := c == 32 || (9 ≤ c && c ≤ 13)

/-- Value of a byte as a digit of strtol: 0-9, then letters of either case
from 10; 36 for a byte that is no digit in any base. -/
def digit_value (c : Nat) : Nat :=
  if 48 ≤ c ∧ c ≤ 57 then c - 48
  else if 97 ≤ c ∧ c ≤ 122 then c - 97 + 10
  else if 65 ≤ c ∧ c ≤ 90 then c - 65 + 10
  else 36

/-- The loop `while (!stop(str[i])) i++` run on the bytes from index `i` on:
the first index at which `stop` holds, `none` when the scan leaves the
buffer. -/
def scan_from (stop : Nat → Bool) : List Nat → Nat → Option Nat
  | [], _ => none
  | c :: cs, i => if stop c then some i else scan_from stop cs (i + 1)

/-- The C library strlen. -/
def strlen (str : List Nat) : Option Nat := scan_from (fun c => c == 0) str 0

/-- The digit loop of strtol: accumulates digits below `base`, stops at the
first other byte. -/
def strtol_digits (base : Nat) : List Nat → Nat → Option Nat
  | [], _ => none
  | c :: cs, acc =>
    if digit_value c < base then strtol_digits base cs (acc * base + digit_value c)
    else some acc

/-- The part of strtol after the sign: base detection (for base 0: a leading
0x or 0X selects 16, a leading 0 selects 8, anything else 10; for base 16 an
optional 0x or 0X is skipped), then the digits. -/
def strtol_body (base : Nat) (s : List Nat) : Option Nat :=
  match s with
  | [] => none
  | c :: cs =>
    if c = 48 ∧ (base = 0 ∨ base = 16) then
      match cs with
      | [] => none
      | x :: ds =>
        if x = 120 ∨ x = 88 then strtol_digits 16 ds 0
        else strtol_digits (if base = 0 then 8 else 16) cs 0
    else strtol_digits (if base = 0 then 10 else base) s 0

/-- The part of strtol after the leading white space: an optional sign. -/
def strtol_signed (base : Nat) (s : List Nat) : Option Int :=
  match s with
  | [] => none
  | c :: cs =>
    if c = 45 then (strtol_body base cs).map (fun (v : Nat) => -(v : Int))
    else if c = 43 then (strtol_body base cs).map (fun (v : Nat) => (v : Int))
    else (strtol_body base s).map (fun (v : Nat) => (v : Int))

/-- Leading white space of strtol. -/
def strtol_ws (base : Nat) : List Nat → Option Int
  | [] => none
  | c :: cs => if isspace c then strtol_ws base cs else strtol_signed base (c :: cs)

/-- A value outside the range of long (64 bit) is replaced by LONG_MIN or
LONG_MAX. -/
def clamp_long (v : Int) : Int :=
  if v < -9223372036854775808 then -9223372036854775808
  else if 9223372036854775807 < v then 9223372036854775807
  else v

/-- The C library strtol(nptr, NULL, base) with a 64-bit long. -/
def strtol (nptr : List Nat) (base : Nat) : Option Int :=
  (strtol_ws base nptr).map clamp_long

/-- The conversion `(int)` of a long: wraps into the signed 32-bit range. -/
def int_of_long (v : Int) : Int := (v + 2147483648) % 4294967296 - 2147483648

/-- The C library atoi: `(int) strtol(nptr, NULL, 10)`. -/
def atoi (nptr : List Nat) : Option Int := (strtol nptr 10).map int_of_long

/-- Conversion of an int to uint8_t. -/
def uint8_of_int (v : Int) : Nat := (v % 256).toNat

/-- Conversion of an int to uint32_t. -/
def uint32_of_int (v : Int) : Nat := (v % 4294967296).toNat

/-! ## Decimal numerals -/

/-- The decimal digits of `n`, most significant first, as byte codes; the
first argument bounds the number of digits. -/
def decimal_digits : Nat → Nat → List Nat
  | 0, _ => []
  | fuel + 1, n =>
    if n < 10 then [48 + n] else decimal_digits fuel (n / 10) ++ [48 + n % 10]

/-- The number `n` written in decimal, without leading zeros. -/
def decimal (n : Nat) : List Nat := decimal_digits (n + 1) n

/-! ## code.c: parse_operand -/

/-- The base register number of a memory operand (code.c lines 52-60), read
after the byte at the end of the base register was overwritten by NUL. -/
def memory_reg_num (operand : operand_t) (str : List Nat) : Option operand_t :=
  if operand.reg_type = REGISTER_w ∨ operand.reg_type = REGISTER_x then
    match str[2]? with
    | none => none
    | some c2 =>
      if c2 = 122 then some { operand with reg_num := 31 }
      else (atoi (str.drop 1)).map (fun v => { operand with reg_num := uint8_of_int v })
  else some operand

/-- The offset of a memory operand (code.c lines 63-72); `i` is the index at
which the scan for the end of the base register stopped. -/
def memory_offset (operand : operand_t) (str : List Nat) (i : Nat) (has_offset : Bool) :
    Option (operand_t × List Nat) :=
  if has_offset then
    -- while (str[i] != '#') i++
    match scan_from (fun c => c == 35) (str.drop i) i with
    | none => none
    | some i =>
      -- str[strlen(str)-1] = 0
      match strlen str with
      | none => none
      | some n =>
        if n = 0 then none
        else
          let str := str.set (n - 1) 0
          match strtol (str.drop (i + 1)) 0 with
          | none => none
          | some v =>
            some ({ operand with constant := uint32_of_int (int_of_long v) }, str)
  else some ({ operand with constant := 0 }, str)

/-- The case OPERAND_memory of parse_operand (code.c lines 41-73). -/
def parse_operand_memory (operand : operand_t) (str : List Nat) :
    Option (operand_t × List Nat) :=
  -- operand.reg_type = str[1]
  match str[1]? with
  | none => none
  | some rt =>
    let operand := { operand with reg_type := rt }
    -- i = 2; while (str[i] != ',' && str[i] != ']') i++
    match scan_from (fun c => c == 44 || c == 93) (str.drop 2) 2 with
    | none => none
    | some i =>
      -- has_offset = (str[i] == ','); str[i] = 0
      let has_offset := str[i]? == some 44
      let str := str.set i 0
      match memory_reg_num operand str with
      | none => none
      | some operand => memory_offset operand str i has_offset

/-- The function parse_operand of code.c.  `operand` is the uninitialised
local of the C function; the result is the operand and the buffer after the
call. -/
def parse_operand (operand : operand_t) (str : List Nat) :
    Option (operand_t × List Nat) :=
  match str[0]? with
  | none => none
  | some c =>
    let operand := { operand with type := c }
    if c = REGISTER_w ∨ c = REGISTER_x then
      let operand := { operand with type := OPERAND_register, reg_type := c }
      match str[1]? with
      | none => none
      | some c1 =>
        if c1 = 122 then some ({ operand with reg_num := 31 }, str)
        else (atoi (str.drop 1)).map
          (fun v => ({ operand with reg_num := uint8_of_int v }, str))
    else if c = REGISTER_sp ∨ c = REGISTER_pc then
      some ({ operand with type := OPERAND_register, reg_type := c }, str)
    else if c = OPERAND_constant then
      (strtol (str.drop 1) 0).map (fun v =>
        ({ operand with type := OPERAND_constant, reg_type := 0,
                        constant := uint32_of_int (int_of_long v) }, str))
    else if c = OPERAND_memory then
      parse_operand_memory operand str
    else if 48 ≤ c ∧ c ≤ 57 then
      (strtol str 16).map (fun v =>
        ({ operand with type := OPERAND_address, reg_type := 0,
                        constant := uint32_of_int (int_of_long v) }, str))
    else if c = 60 then
      some ({ operand with type := OPERAND_NULL, reg_type := 0 }, str)
    else
      -- the diagnostic prints str up to its terminator
      (strlen str).map (fun _ =>
        ({ operand with type := OPERAND_NULL, reg_type := 0 }, str))

/-! ## code.c: parse_instruction -/

/-- What makes a run of the decoder undefined: a read outside the buffer it
was given, or a store to `operands[index]` with `index` outside the three
slots of the array. -/
inductive decode_fault where
  | read_outside_buffer : decode_fault
  | store_outside_operands (index : Nat) : decode_fault
deriving DecidableEq, Repr

/-- The bytes that strncpy(dst, str, n) writes to dst: the bytes of str up to
its terminator, then zero bytes up to n. -/
def strncpy_bytes : Nat → List Nat → Option (List Nat)
  | 0, _ => some []
  | _ + 1, [] => none
  | n + 1, c :: cs =>
    if c = 0 then some (List.replicate (n + 1) 0)
    else (strncpy_bytes n cs).map (fun bs => c :: bs)

/-- Value of an unsigned integer object from its bytes, lowest address first
(little-endian, the byte order the OPERATION constants are written for). -/
def le_value : List Nat → Nat
  | [] => 0
  | b :: bs => b + 256 * le_value bs

/-- The operand loop of parse_instruction (code.c lines 174-191), with the
loop variables of the C code as arguments.  The first argument bounds the
number of iterations; parse_instruction passes the buffer length plus one,
which the loop cannot exhaust since `i` grows by one per iteration. -/
def operand_loop (junk : Nat → operand_t) :
    Nat → List Nat → Nat → Nat → Bool → Nat → instruction_t →
      Except decode_fault (Nat × instruction_t)
  | 0, _, _, _, _, _, _ => .error .read_outside_buffer
  | fuel + 1, str, i, j, sqbkt, num_operands, instruction =>
    match str[i]? with
    | none => .error .read_outside_buffer
    | some c =>
      if c = 0 then .ok (num_operands, instruction)
      else if c = 91 then
        operand_loop junk fuel str (i + 1) j true num_operands instruction
      else if c = 93 then
        operand_loop junk fuel str (i + 1) j false num_operands instruction
      else if isspace c = true ∧ sqbkt = false then
        -- str[i] = 0; if (str[i-1] == ',') str[i-1] = 0
        let str := str.set i 0
        match str[i - 1]? with
        | none => .error .read_outside_buffer
        | some p =>
          let str := if p = 44 then str.set (i - 1) 0 else str
          -- instruction.operands[num_operands] = parse_operand(str+j)
          match parse_operand (junk num_operands) (str.drop j) with
          | none => .error .read_outside_buffer
          | some (op, rest) =>
            if h : num_operands < 3 then
              operand_loop junk fuel (str.take j ++ rest) (i + 1) (i + 1) sqbkt
                (num_operands + 1)
                { instruction with
                  operands := Function.update instruction.operands ⟨num_operands, h⟩ op }
            else .error (.store_outside_operands num_operands)
      else operand_loop junk fuel str (i + 1) j sqbkt num_operands instruction

/-- The padding loop of parse_instruction (code.c lines 193-196): every slot
from num_operands on gets the type OPERAND_NULL, its other fields stay. -/
def pad_operands (instruction : instruction_t) (num_operands : Nat) : instruction_t :=
  { instruction with
    operands := fun k =>
      if num_operands ≤ k.val then { instruction.operands k with type := OPERAND_NULL }
      else instruction.operands k }

/-- The function parse_instruction of code.c.  `instruction` is the
uninitialised local of the C function and `junk n` the uninitialised local
of the call of parse_operand that decodes operand number `n`. -/
def parse_instruction (instruction : instruction_t) (junk : Nat → operand_t)
    (str : List Nat) : Except decode_fault instruction_t :=
  -- while (str[i] != 0 && !isspace(str[i])) i++
  match scan_from (fun c => c == 0 || isspace c) str 0 with
  | none => .error .read_outside_buffer
  | some i =>
    -- str[i++] = 0
    let str := str.set i 0
    -- strncpy((char *)&instruction.operation, str, 4)
    match strncpy_bytes 4 str with
    | none => .error .read_outside_buffer
    | some bytes =>
      let instruction := { instruction with operation := le_value bytes }
      match operand_loop junk (str.length + 1) str (i + 1) (i + 1) false 0 instruction with
      | .error e => .error e
      | .ok (n, instruction) => .ok (pad_operands instruction n)

/-! ## Machine state (machine.h) -/

/-- Modelled from the spec: the struct machine_t of machine.h, a header that
is not among the sources.  The fields are the ones machine.c uses and the
Machine State of the spec lists: 31 general registers of 64 bits, sp, pc,
the decoded code with the addresses of its first and last instruction, the
stack buffer (`none` is the NULL pointer) with the addresses of its lowest
and highest byte, and the condition flags. -/
structure machine_t where
  registers : Fin 31 → Nat
  sp : Nat
  pc : Nat
  code : List instruction_t
  code_top : Nat
  code_bot : Nat
  stack : Option (List Nat)
  stack_top : Nat
  stack_bot : Nat
  conditions : Nat

/-- What stops a run of the execution engine: a failed assert, or undefined
behaviour (an index outside registers[0..30], a NULL stack, an access outside
the stack buffer, a shift by 64 or more). -/
inductive machine_fault where
  | assertion_failed : machine_fault
  | outside_registers (index : Nat) : machine_fault
  | null_stack : machine_fault
  | outside_stack (offset : Nat) : machine_fault
  | shift_too_large (amount : Nat) : machine_fault
deriving DecidableEq, Repr

/-- Subtraction of uint64_t values: the difference modulo 2^64. -/
def sub64 (x y : Nat) : Nat :=
  (x + (18446744073709551616 - y % 18446744073709551616)) % 18446744073709551616

/-- Bytes of an unsigned integer object of `n` bytes holding `v`, lowest
address first (little-endian). -/
def le_bytes : Nat → Nat → List Nat
  | 0, _ => []
  | n + 1, v => v % 256 :: le_bytes n (v / 256)

/-- The `n` bytes of the buffer from byte offset `off`; `none` outside. -/
def read_bytes (buf : List Nat) (off n : Nat) : Option (List Nat) :=
  if off + n ≤ buf.length then some ((buf.drop off).take n) else none

/-- The buffer with the bytes `bs` stored from byte offset `off`; `none`
outside. -/
def write_bytes (buf : List Nat) (off : Nat) (bs : List Nat) : Option (List Nat) :=
  if off + bs.length ≤ buf.length then
    some (buf.take off ++ bs ++ buf.drop (off + bs.length))
  else none

/-! ## machine.c -/

/-- The function init_machine of machine.c.  REGISTER_NULL and
WORD_SIZE_BYTES are constants of machine.h, which is not among the sources,
and are parameters here; `code`, `code_top` and `code_bot` are what the call
of parse_file delivers. -/
def init_machine (REGISTER_NULL WORD_SIZE_BYTES : Nat) (sp pc : Nat)
    (code : List instruction_t) (code_top code_bot : Nat) : machine_t :=
  { registers := fun _ => REGISTER_NULL
    sp := sp
    pc := pc
    code := code
    code_top := code_top
    code_bot := code_bot
    stack_top := sp
    stack_bot := sub64 (sp + WORD_SIZE_BYTES) 1
    stack := some (List.replicate WORD_SIZE_BYTES 0)
    conditions := 0 }

/-- The function get_value of machine.c. -/
def get_value (m : machine_t) (operand : operand_t) : Except machine_fault Nat :=
  if operand.type = OPERAND_constant then .ok operand.constant
  else if operand.type = OPERAND_address then .ok operand.constant
  else if operand.type = OPERAND_register then
    if operand.reg_type = REGISTER_w then
      if h : operand.reg_num < 31 then
        .ok (m.registers ⟨operand.reg_num, h⟩ &&& 0xFFFFFFFF)
      else .error (.outside_registers operand.reg_num)
    else if operand.reg_type = REGISTER_x then
      if h : operand.reg_num < 31 then .ok (m.registers ⟨operand.reg_num, h⟩)
      else .error (.outside_registers operand.reg_num)
    else if operand.reg_type = REGISTER_pc then .ok m.pc
    else if operand.reg_type = REGISTER_sp then .ok m.sp
    else .ok 0
  else .ok 0

/-- The function put_value of machine.c. -/
def put_value (m : machine_t) (operand : operand_t) (value : Nat) :
    Except machine_fault machine_t :=
  if operand.type ≠ OPERAND_register then .error .assertion_failed
  else if operand.reg_type = REGISTER_w then
    if h : operand.reg_num < 31 then
      .ok { m with
            registers := Function.update m.registers ⟨operand.reg_num, h⟩
              (value &&& 0xFFFFFFFF) }
    else .error (.outside_registers operand.reg_num)
  else if operand.reg_type = REGISTER_x then
    if h : operand.reg_num < 31 then
      .ok { m with registers := Function.update m.registers ⟨operand.reg_num, h⟩ value }
    else .error (.outside_registers operand.reg_num)
  else if operand.reg_type = REGISTER_pc then .ok { m with pc := value }
  else if operand.reg_type = REGISTER_sp then .ok { m with sp := value }
  else .ok m

/-- The function get_memory_address of machine.c: the uint64_t sum of the
value of the base register and the uint32_t field constant. -/
def get_memory_address (m : machine_t) (operand : operand_t) : Except machine_fault Nat :=
  if operand.type ≠ OPERAND_memory then .error .assertion_failed
  else
    match get_value m { operand with type := OPERAND_register } with
    | .error e => .error e
    | .ok v => .ok ((v + operand.constant) % 18446744073709551616)

/-- The function execute_ldr_str of machine.c.  The pointer `addy` is the
stack buffer plus the byte offset `stack_top - get_memory_address(second)`
(uint64_t arithmetic); the access has 4 bytes when the first operand has
reg_type w, and 8 bytes otherwise. -/
def execute_ldr_str (m : machine_t) (first second : operand_t) (operation : Nat) :
    Except machine_fault machine_t :=
  match get_memory_address m second with
  | .error e => .error e
  | .ok a =>
    let off := sub64 m.stack_top a
    let width := if first.reg_type = REGISTER_w then 4 else 8
    if operation = OPERATION_ldr then
      match m.stack with
      | none => .error .null_stack
      | some buf =>
        match read_bytes buf off width with
        | none => .error (.outside_stack off)
        | some bs => put_value m first (le_value bs)
    else if operation = OPERATION_str then
      match get_value m first with
      | .error e => .error e
      | .ok v =>
        match m.stack with
        | none => .error .null_stack
        | some buf =>
          match write_bytes buf off (le_bytes width v) with
          | none => .error (.outside_stack off)
          | some buf => .ok { m with stack := some buf }
    else .ok m

/-- The two source operands of a three-operand instruction, then the
write of `f a b` to the first operand. -/
def execute_binary (m : machine_t) (first second third : operand_t)
    (f : Nat → Nat → Except machine_fault Nat) : Except machine_fault machine_t :=
  match get_value m second with
  | .error e => .error e
  | .ok a =>
    match get_value m third with
    | .error e => .error e
    | .ok b =>
      match f a b with
      | .error e => .error e
      | .ok v => put_value m first v

/-- The function execute of machine.c. -/
def execute (m : machine_t) (instruction : instruction_t) : Except machine_fault machine_t :=
  let first := instruction.operands 0
  let second := instruction.operands 1
  let third := instruction.operands 2
  if instruction.operation = OPERATION_nop then .ok m
  else if instruction.operation = OPERATION_add then
    execute_binary m first second third
      (fun a b => .ok ((a + b) % 18446744073709551616))
  else if instruction.operation = OPERATION_sub then
    execute_binary m first second third (fun a b => .ok (sub64 a b))
  else if instruction.operation = OPERATION_lsl then
    execute_binary m first second third
      (fun a b => if b < 64 then .ok ((a <<< b) % 18446744073709551616)
                  else .error (.shift_too_large b))
  else if instruction.operation = OPERATION_lsr then
    execute_binary m first second third
      (fun a b => if b < 64 then .ok (a >>> b) else .error (.shift_too_large b))
  else if instruction.operation = OPERATION_and then
    execute_binary m first second third (fun a b => .ok (a &&& b))
  else if instruction.operation = OPERATION_orr then
    execute_binary m first second third (fun a b => .ok (a ||| b))
  else if instruction.operation = OPERATION_ldr then
    execute_ldr_str m first second instruction.operation
  else if instruction.operation = OPERATION_str then
    execute_ldr_str m first second instruction.operation
  else if instruction.operation = OPERATION_mov then
    match get_value m second with
    | .error e => .error e
    | .ok v => put_value m first v
  else if instruction.operation = OPERATION_b then
    match get_value m first with
    | .error e => .error e
    | .ok v => .ok { m with pc := v }
  else if instruction.operation = OPERATION_bl then
    match get_value m first with
    | .error e => .error e
    | .ok v => .ok { m with pc := v }
  else .ok m

/-! ## machine.c: grow_stack -/

/-- The block that malloc(size) returns; its bytes are indeterminate,
`heap k` is the byte at offset `k` of the fresh block. -/
def malloc (heap : Nat → Nat) (size : Nat) : List Nat := (List.range size).map heap

/-- The C library memset(buf + off, 0, n); `none` when it writes outside
the block. -/
def memset_zero (buf : List Nat) (off n : Nat) : Option (List Nat) :=
  write_bytes buf off (List.replicate n 0)

/-- The C library memcpy(dst + off, src, n); `none` when it reads outside
src or writes outside dst. -/
def memcpy (dst : List Nat) (off : Nat) (src : List Nat) (n : Nat) : Option (List Nat) :=
  if n ≤ src.length then write_bytes dst off (src.take n) else none

/-- The function grow_stack of machine.c.  WORD_SIZE_BYTES is a constant of
machine.h, which is not among the sources, and is a parameter here (a
positive number); `heap` gives the indeterminate bytes of the block that
malloc returns.  All sizes and offsets are uint64_t values. -/
def grow_stack (WORD_SIZE_BYTES : Nat) (heap : Nat → Nat) (m : machine_t) (new_sp : Nat) :
    Except machine_fault machine_t :=
  if new_sp < m.stack_top then
    -- round down to a multiple of the word size
    let new_sp :=
      if new_sp % WORD_SIZE_BYTES ≠ 0 then sub64 new_sp (new_sp % WORD_SIZE_BYTES)
      else new_sp
    -- new_stack = malloc(stack_bot - new_sp + 1)
    let new_stack := malloc heap ((sub64 m.stack_bot new_sp + 1) % 18446744073709551616)
    -- memset(new_stack, 0, stack_top - new_sp)
    match memset_zero new_stack 0 (sub64 m.stack_top new_sp) with
    | none => .error (.outside_stack 0)
    | some new_stack =>
      match m.stack with
      | none => .ok { m with stack := some new_stack, stack_top := new_sp }
      | some old =>
        -- memcpy(new_stack + (stack_top - new_sp), stack, stack_bot - stack_top + 1)
        match memcpy new_stack (sub64 m.stack_top new_sp) old
            ((sub64 m.stack_bot m.stack_top + 1) % 18446744073709551616) with
        | none => .error (.outside_stack (sub64 m.stack_top new_sp))
        | some new_stack => .ok { m with stack := some new_stack, stack_top := new_sp }
  else if m.stack_bot < new_sp then
    -- round up to the next multiple of the word size
    let new_sp :=
      if new_sp % WORD_SIZE_BYTES ≠ 0 then
        (new_sp + (WORD_SIZE_BYTES - new_sp % WORD_SIZE_BYTES)) % 18446744073709551616
      else (new_sp + WORD_SIZE_BYTES) % 18446744073709551616
    -- new_stack = malloc(new_sp - stack_top)
    let new_stack := malloc heap (sub64 new_sp m.stack_top)
    -- memset(new_stack + (stack_bot - stack_top), 0, new_sp - stack_bot)
    match memset_zero new_stack (sub64 m.stack_bot m.stack_top) (sub64 new_sp m.stack_bot) with
    | none => .error (.outside_stack (sub64 m.stack_bot m.stack_top))
    | some new_stack =>
      match m.stack with
      | none => .ok { m with stack := some new_stack, stack_bot := sub64 new_sp 1 }
      | some old =>
        -- memcpy(new_stack, stack, stack_bot - stack_top)
        match memcpy new_stack 0 old (sub64 m.stack_bot m.stack_top) with
        | none => .error (.outside_stack 0)
        | some new_stack => .ok { m with stack := some new_stack, stack_bot := sub64 new_sp 1 }
  else .ok m

/-! ## code.c: parse_file -/

/-- Conversion of a long to uint64_t. -/
def uint64_of_long (v : Int) : Nat := (v % 18446744073709551616).toNat

/-- The loop of parse_file (code.c lines 240-280).  The source file is the
list of the strings that the successive calls of fgets deliver (lines of at
most 99 bytes, the newline included).  `k` counts the calls; the array line
holds the string, its terminator and then `stale k`, the bytes that earlier
iterations left there (`buf` in the definition).  `instruction k` and
`junk k` are the uninitialised locals of the call of parse_instruction,
`sentinel` the uninitialised last element of the array instructions. -/
def parse_file_loop (instruction : Nat → instruction_t) (junk : Nat → Nat → operand_t)
    (stale : Nat → List Nat) (sentinel : instruction_t) :
    Nat → List (List Nat) → List instruction_t → Nat → Nat →
      Except decode_fault (List instruction_t × Nat × Nat)
  | _, [], instructions, code_start, code_end =>
    -- instructions[j].operation = OPERATION_NULL
    .ok (instructions ++ [{ sentinel with operation := OPERATION_NULL }], code_start, code_end)
  | k, l :: ls, instructions, code_start, code_end =>
    let buf := l ++ 0 :: stale k
    -- if (line[0] == '\n' || line[strlen(line)-2] == ':') continue
    match buf[0]? with
    | none => .error .read_outside_buffer
    | some c0 =>
      if c0 = 10 then
        parse_file_loop instruction junk stale sentinel (k + 1) ls instructions code_start
          code_end
      else
        match strlen buf with
        | none => .error .read_outside_buffer
        | some n =>
          if n < 2 then .error .read_outside_buffer
          else
            match buf[n - 2]? with
            | none => .error .read_outside_buffer
            | some c =>
              if c = 58 then
                parse_file_loop instruction junk stale sentinel (k + 1) ls instructions
                  code_start code_end
              else
                -- i = 0; while (isspace(line[i])) i++
                match scan_from (fun c => !isspace c) buf 0 with
                | none => .error .read_outside_buffer
                | some i0 =>
                  -- addr = line+i; while (!isspace(line[i])) i++
                  match scan_from (fun c => isspace c) (buf.drop i0) i0 with
                  | none => .error .read_outside_buffer
                  | some i1 =>
                    -- line[i++] = 0
                    let buf := buf.set i1 0
                    match strtol (buf.drop i0) 16 with
                    | none => .error .read_outside_buffer
                    | some v =>
                      -- if (*code_start == 0) *code_start = strtol(addr, NULL, 16)
                      let code_start := if code_start = 0 then uint64_of_long v else code_start
                      -- *code_end = strtol(addr, NULL, 16)
                      let code_end := uint64_of_long v
                      -- while (!isspace(line[i])) i++
                      match scan_from (fun c => isspace c) (buf.drop (i1 + 1)) (i1 + 1) with
                      | none => .error .read_outside_buffer
                      | some i2 =>
                        -- while (isspace(line[i])) i++
                        match scan_from (fun c => !isspace c) (buf.drop i2) i2 with
                        | none => .error .read_outside_buffer
                        | some i3 =>
                          -- instructions[j] = parse_instruction(line+i)
                          match parse_instruction (instruction k) (junk k) (buf.drop i3) with
                          | .error e => .error e
                          | .ok ins =>
                            parse_file_loop instruction junk stale sentinel (k + 1) ls
                              (instructions ++ [ins]) code_start code_end

/-- The function parse_file of code.c on the lines of the source file:
the instruction stream and the final values of *code_start and *code_end,
whose values at the call are the last two arguments. -/
def parse_file (instruction : Nat → instruction_t) (junk : Nat → Nat → operand_t)
    (stale : Nat → List Nat) (sentinel : instruction_t) (lines : List (List Nat))
    (code_start code_end : Nat) : Except decode_fault (List instruction_t × Nat × Nat) :=
  parse_file_loop instruction junk stale sentinel 0 lines [] code_start code_end

/-! ## Instruction lines

The shape of a line of assembly text, used to state what the decoder does
on every line of that shape. -/

/-- A token without white space, brackets or NUL that does not end in a
comma: a register, an immediate, an address, a label. -/
def plain_token (t : List Nat) : Prop :=
  (∀ c ∈ t, c ≠ 0 ∧ isspace c = false ∧ c ≠ 91 ∧ c ≠ 93) ∧ t.getLast? ≠ some 44

/-- A bracketed memory operand: an opening bracket, a body without brackets
or NUL (white space and commas are allowed), a closing bracket. -/
def bracket_token (t : List Nat) : Prop :=
  ∃ body, t = 91 :: (body ++ [93]) ∧ ∀ c ∈ body, c ≠ 0 ∧ c ≠ 91 ∧ c ≠ 93

/-- A token that the operand loop does not split: plain or bracketed. -/
def scannable_token (t : List Nat) : Prop := plain_token t ∨ bracket_token t

/-- The operand decoder stays inside the token: parse_operand returns on
the token taken as a C string of its own.  Every token that does not start
with an opening bracket and every memory token is decodable (theorems
decodable_unbracketed and memory_token_decodable). -/
def decodable (t : List Nat) : Prop :=
  ∀ operand, parse_operand operand (t ++ [0]) ≠ none

/-- The operand text of a line: the tokens, each but the last followed by a
comma and the white space byte `ws p` (`p` the number of the token that
follows), the last followed by a newline. -/
def operand_text (ws : Nat → Nat) : Nat → List (List Nat) → List Nat
  | _, [] => []
  | _, [t] => t ++ [10]
  | p, t :: t' :: ts => t ++ 44 :: ws (p + 1) :: operand_text ws (p + 1) (t' :: ts)

/-- A newline-terminated instruction line: the mnemonic, and when there are
operand tokens the white space byte `ws 0` and the operand text. -/
def asm_line (ws : Nat → Nat) (mn : List Nat) (toks : List (List Nat)) : List Nat :=
  match toks with
  | [] => mn ++ [10]
  | _ :: _ => mn ++ ws 0 :: operand_text ws 0 toks

/-- The operand text of a line that ends with its last token: no newline
and no white space after it. -/
def trimmed_text (ws : Nat → Nat) : Nat → List (List Nat) → List Nat
  | _, [] => []
  | _, [t] => t
  | p, t :: t' :: ts => t ++ 44 :: ws (p + 1) :: trimmed_text ws (p + 1) (t' :: ts)

/-- The value of a string of hexadecimal digits. -/
def hex_value (t : List Nat) : Nat := t.foldl (fun acc c => acc * 16 + digit_value c) 0

/-- The value of sqbkt after the operand loop has passed the byte `c`. -/
def next_sqbkt (sqbkt : Bool) (c : Nat) : Bool :=
  if c = 91 then true else if c = 93 then false else sqbkt

/-- The value of sqbkt after the operand loop has passed the bytes `t`. -/
def sqbkt_after (sqbkt : Bool) (t : List Nat) : Bool := t.foldl next_sqbkt sqbkt

/-- The operand loop passes the bytes `t` without ending and without
splitting. -/
def no_split : Bool → List Nat → Prop
  | _, [] => True
  | sqbkt, c :: cs =>
    c ≠ 0 ∧ (c = 91 ∨ c = 93 ∨ isspace c = false ∨ sqbkt = true) ∧
      no_split (next_sqbkt sqbkt c) cs

/-! # Theorems -/

/-! ## Decimal numerals and strtol -/

theorem decimal_examples :
    decimal 0 = cstr "0" ∧ decimal 7 = cstr "7" ∧ decimal 30 = cstr "30" ∧
      decimal 2147483647 = cstr "2147483647" := by
  decide

theorem digit_value_decimal (d : Nat) (h : d < 10) : digit_value (48 + d) = d := by
  unfold digit_value
  rw [if_pos (by omega)]
  omega

theorem strtol_digits_decimal (fuel : Nat) :
    ∀ n r, n < fuel →
      strtol_digits 10 (decimal_digits fuel n ++ r) 0 = strtol_digits 10 r n := by
  induction fuel with
  | zero => intro n r h; omega
  | succ fuel ih =>
    intro n r h
    unfold decimal_digits
    split
    · rename_i h10
      simp only [List.singleton_append, strtol_digits, digit_value_decimal n h10, h10,
        if_true, Nat.zero_mul, Nat.zero_add]
      rfl
    · rename_i h10
      rw [List.append_assoc, ih (n / 10) _ (by omega)]
      have hd : n % 10 < 10 := Nat.mod_lt _ (by decide)
      simp only [List.singleton_append, strtol_digits, digit_value_decimal _ hd, hd, if_true]
      congr 1
      omega

theorem decimal_digits_bytes (fuel : Nat) :
    ∀ n, n < fuel → ∀ c ∈ decimal_digits fuel n, 48 ≤ c ∧ c ≤ 57 := by
  induction fuel with
  | zero => intro n h; omega
  | succ fuel ih =>
    intro n h c hc
    unfold decimal_digits at hc
    split at hc
    · simp only [List.mem_singleton] at hc
      omega
    · rcases List.mem_append.mp hc with h1 | h1
      · exact ih (n / 10) (by omega) c h1
      · simp only [List.mem_singleton] at h1
        omega

theorem decimal_bytes (n : Nat) : ∀ c ∈ decimal n, 48 ≤ c ∧ c ≤ 57 :=
  decimal_digits_bytes (n + 1) n (Nat.lt_succ_self n)

theorem decimal_digits_head (fuel : Nat) :
    ∀ n, n < fuel → ∃ c cs, decimal_digits fuel n = c :: cs ∧ 48 ≤ c ∧ c ≤ 57 ∧
      (n ≠ 0 → c ≠ 48) := by
  induction fuel with
  | zero => intro n h; omega
  | succ fuel ih =>
    intro n h
    unfold decimal_digits
    split
    · exact ⟨48 + n, [], rfl, by omega, by omega, by omega⟩
    · obtain ⟨c, cs, he, h1, h2, h3⟩ := ih (n / 10) (by omega)
      refine ⟨c, cs ++ [48 + n % 10], by rw [he]; rfl, h1, h2, fun _ => h3 (by omega)⟩

theorem decimal_head (n : Nat) :
    ∃ c cs, decimal n = c :: cs ∧ 48 ≤ c ∧ c ≤ 57 ∧ (n ≠ 0 → c ≠ 48) :=
  decimal_digits_head (n + 1) n (Nat.lt_succ_self n)

/-- The digit loop reads a decimal numeral followed by a NUL back. -/
theorem strtol_digits_numeral (n : Nat) (rest : List Nat) :
    strtol_digits 10 (decimal n ++ 0 :: rest) 0 = some n := by
  unfold decimal
  rw [strtol_digits_decimal (n + 1) n _ (Nat.lt_succ_self n)]
  simp [strtol_digits, digit_value]

theorem strtol_ws_numeral (base : Nat) (hb : base = 0 ∨ base = 10) (n : Nat)
    (rest : List Nat) :
    strtol_ws base (decimal n ++ 0 :: rest) = some (n : Int) := by
  have hnum := strtol_digits_numeral n rest
  obtain ⟨c, cs, he, h1, h2, h3⟩ := decimal_head n
  rw [he] at hnum ⊢
  have hsp : isspace c = false := by
    simp only [isspace, Bool.or_eq_false_iff, beq_eq_false_iff_ne, Bool.and_eq_false_iff,
      decide_eq_false_iff_not]
    omega
  simp only [List.cons_append, strtol_ws, hsp, Bool.false_eq_true, if_false, strtol_signed]
  rw [if_neg (by omega), if_neg (by omega)]
  by_cases h0 : n = 0
  · subst h0
    have : decimal 0 = [48] := by decide
    rw [this] at he
    injection he with hc hcs
    subst hc hcs
    rcases hb with hb | hb <;> subst hb <;> simp [strtol_body, strtol_digits, digit_value]
  · have hc := h3 h0
    simp only [strtol_body, List.cons_append] at hnum ⊢
    rw [if_neg (by omega)]
    rcases hb with hb | hb <;> subst hb <;> simp [hnum]

theorem strtol_numeral (base : Nat) (hb : base = 0 ∨ base = 10) (n : Nat)
    (hn : n < 2147483648) (rest : List Nat) :
    (strtol (decimal n ++ 0 :: rest) base).map int_of_long = some (n : Int) := by
  simp only [strtol, strtol_ws_numeral base hb n rest, Option.map_some']
  have h1 : clamp_long (n : Int) = n := by
    unfold clamp_long
    rw [if_neg (by omega), if_neg (by omega)]
  have h2 : int_of_long (n : Int) = n := by
    unfold int_of_long
    omega
  rw [h1, h2]

theorem atoi_numeral (n : Nat) (hn : n < 2147483648) (rest : List Nat) :
    atoi (decimal n ++ 0 :: rest) = some (n : Int) :=
  strtol_numeral 10 (Or.inr rfl) n hn rest

/-! ## parse_operand on register tokens -/

theorem parse_operand_reg (operand : operand_t) (c : Nat)
    (hc : c = REGISTER_w ∨ c = REGISTER_x) (k : Nat) (hk : k < 256) (rest : List Nat) :
    parse_operand operand (c :: (decimal k ++ 0 :: rest)) =
      some ({ operand with type := OPERAND_register, reg_type := c, reg_num := k },
        c :: (decimal k ++ 0 :: rest)) := by
  have hat := atoi_numeral k (by omega) rest
  obtain ⟨d, ds, he, h1, h2, -⟩ := decimal_head k
  have hu : uint8_of_int (k : Int) = k := by
    unfold uint8_of_int
    omega
  unfold parse_operand
  simp only [List.getElem?_cons_zero, hc, if_true, List.drop_succ_cons, List.drop_zero, hat,
    Option.map_some', hu]
  rw [he]
  simp only [List.cons_append, List.getElem?_cons_succ, List.getElem?_cons_zero]
  rw [if_neg (by omega)]

theorem parse_operand_zero_reg (operand : operand_t) (c : Nat)
    (hc : c = REGISTER_w ∨ c = REGISTER_x) (rest : List Nat) :
    parse_operand operand (c :: 122 :: rest) =
      some ({ operand with type := OPERAND_register, reg_type := c, reg_num := 31 },
        c :: 122 :: rest) := by
  unfold parse_operand
  simp [hc]

/-- C1: for every k from 0 to 30, parse_operand on the token w<k> (x<k>), k
written in decimal, returns a register operand with reg_type w (x) and
reg_num k, and on every token whose first byte is w or x and whose second
byte is z (wz, xz, wzr, xzr) a register operand with that reg_type and
reg_num 31.  The field constant keeps its uninitialised value. -/
theorem parse_operand_register_tokens (operand : operand_t) (k : Nat) (hk : k ≤ 30)
    (rest : List Nat) :
    parse_operand operand (cstr "w" ++ decimal k ++ [0]) =
        some ({ type := OPERAND_register, reg_type := REGISTER_w, reg_num := k,
                constant := operand.constant }, cstr "w" ++ decimal k ++ [0]) ∧
      parse_operand operand (cstr "x" ++ decimal k ++ [0]) =
        some ({ type := OPERAND_register, reg_type := REGISTER_x, reg_num := k,
                constant := operand.constant }, cstr "x" ++ decimal k ++ [0]) ∧
      parse_operand operand (cstr "wz" ++ rest) =
        some ({ type := OPERAND_register, reg_type := REGISTER_w, reg_num := 31,
                constant := operand.constant }, cstr "wz" ++ rest) ∧
      parse_operand operand (cstr "xz" ++ rest) =
        some ({ type := OPERAND_register, reg_type := REGISTER_x, reg_num := 31,
                constant := operand.constant }, cstr "xz" ++ rest) :=
  ⟨parse_operand_reg operand REGISTER_w (Or.inl rfl) k (by omega) [],
   parse_operand_reg operand REGISTER_x (Or.inr rfl) k (by omega) [],
   parse_operand_zero_reg operand REGISTER_w (Or.inl rfl) rest,
   parse_operand_zero_reg operand REGISTER_x (Or.inr rfl) rest⟩

theorem parse_operand_register_tokens_witness :
    12 ≤ 30 ∧
      parse_operand ⟨1, 2, 3, 4⟩ (cstr "w" ++ decimal 12 ++ [0]) =
        some ({ type := OPERAND_register, reg_type := REGISTER_w, reg_num := 12,
                constant := 4 }, cstr "w" ++ decimal 12 ++ [0]) :=
  ⟨by decide, (parse_operand_register_tokens ⟨1, 2, 3, 4⟩ 12 (by decide) (cstr "r" ++ [0])).1⟩

/-! ## The decoder only looks at the string it is given

A call that stays inside a buffer gives the same result when more bytes
follow the buffer. -/

theorem getElem?_append_some {s : List Nat} {i c : Nat} (t : List Nat)
    (h : s[i]? = some c) : (s ++ t)[i]? = some c := by
  obtain ⟨hi, -⟩ := List.getElem?_eq_some.mp h
  rw [List.getElem?_append_left hi, h]

theorem scan_from_append (stop : Nat → Bool) (t : List Nat) :
    ∀ s i k, scan_from stop s i = some k → scan_from stop (s ++ t) i = some k := by
  intro s
  induction s with
  | nil => intro i k h; simp [scan_from] at h
  | cons c cs ih =>
    intro i k h
    simp only [scan_from, List.cons_append] at h ⊢
    split
    · rename_i hc
      simpa [hc] using h
    · rename_i hc
      rw [if_neg hc] at h
      exact ih _ _ h

theorem scan_from_bound (stop : Nat → Bool) :
    ∀ s i k, scan_from stop s i = some k → i ≤ k ∧ k < i + s.length := by
  intro s
  induction s with
  | nil => intro i k h; simp [scan_from] at h
  | cons c cs ih =>
    intro i k h
    simp only [scan_from] at h
    split at h
    · simp only [Option.some.injEq] at h
      simp only [List.length_cons]
      omega
    · have := ih _ _ h
      simp only [List.length_cons]
      omega

theorem strtol_digits_append (base : Nat) (t : List Nat) :
    ∀ s acc v, strtol_digits base s acc = some v →
      strtol_digits base (s ++ t) acc = some v := by
  intro s
  induction s with
  | nil => intro acc v h; simp [strtol_digits] at h
  | cons c cs ih =>
    intro acc v h
    simp only [strtol_digits, List.cons_append] at h ⊢
    split
    · rename_i hc
      rw [if_pos hc] at h
      exact ih _ _ h
    · rename_i hc
      rw [if_neg hc] at h
      exact h

theorem strtol_body_append (base : Nat) (t s : List Nat) (v : Nat)
    (h : strtol_body base s = some v) : strtol_body base (s ++ t) = some v := by
  cases s with
  | nil => simp [strtol_body] at h
  | cons c cs =>
    simp only [strtol_body, List.cons_append] at h ⊢
    split
    · rename_i hc
      rw [if_pos hc] at h
      cases cs with
      | nil => simp at h
      | cons x ds =>
        simp only [List.cons_append] at h ⊢
        split
        · rename_i hx
          rw [if_pos hx] at h
          exact strtol_digits_append _ t _ _ _ h
        · rename_i hx
          rw [if_neg hx] at h
          exact strtol_digits_append _ t (x :: ds) _ _ h
    · rename_i hc
      rw [if_neg hc] at h
      exact strtol_digits_append _ t (c :: cs) _ _ h

theorem strtol_signed_append (base : Nat) (t s : List Nat) (v : Int)
    (h : strtol_signed base s = some v) : strtol_signed base (s ++ t) = some v := by
  cases s with
  | nil => simp [strtol_signed] at h
  | cons c cs =>
    simp only [strtol_signed, List.cons_append] at h ⊢
    split
    · rename_i hc
      rw [if_pos hc] at h
      obtain ⟨u, hu, rfl⟩ := Option.map_eq_some'.mp h
      rw [strtol_body_append base t cs u hu]
      rfl
    · rename_i hc
      rw [if_neg hc] at h
      split
      · rename_i hp
        rw [if_pos hp] at h
        obtain ⟨u, hu, rfl⟩ := Option.map_eq_some'.mp h
        rw [strtol_body_append base t cs u hu]
        rfl
      · rename_i hp
        rw [if_neg hp] at h
        obtain ⟨u, hu, rfl⟩ := Option.map_eq_some'.mp h
        have := strtol_body_append base t (c :: cs) u hu
        rw [List.cons_append] at this
        rw [this]
        rfl

theorem strtol_ws_append (base : Nat) (t : List Nat) :
    ∀ s v, strtol_ws base s = some v → strtol_ws base (s ++ t) = some v := by
  intro s
  induction s with
  | nil => intro v h; simp [strtol_ws] at h
  | cons c cs ih =>
    intro v h
    simp only [strtol_ws, List.cons_append] at h ⊢
    split
    · rename_i hc
      rw [if_pos hc] at h
      exact ih _ h
    · rename_i hc
      rw [if_neg hc] at h
      have := strtol_signed_append base t (c :: cs) v h
      rwa [List.cons_append] at this

theorem strtol_append (base : Nat) (t s : List Nat) (v : Int)
    (h : strtol s base = some v) : strtol (s ++ t) base = some v := by
  unfold strtol at h ⊢
  obtain ⟨u, hu, rfl⟩ := Option.map_eq_some'.mp h
  rw [strtol_ws_append base t s u hu]
  rfl

theorem atoi_append (t s : List Nat) (v : Int)
    (h : atoi s = some v) : atoi (s ++ t) = some v := by
  unfold atoi at h ⊢
  obtain ⟨u, hu, rfl⟩ := Option.map_eq_some'.mp h
  rw [strtol_append 10 t s u hu]
  rfl

theorem strlen_append (t s : List Nat) (n : Nat)
    (h : strlen s = some n) : strlen (s ++ t) = some n :=
  scan_from_append _ t s 0 n h

/-- A strtol or atoi call on the bytes from index `i` succeeds only when
`i` is inside the buffer. -/
theorem strtol_drop_lt (s : List Nat) (i base : Nat) (v : Int)
    (h : strtol (s.drop i) base = some v) : i < s.length := by
  by_contra hi
  rw [List.drop_eq_nil_of_le (by omega)] at h
  simp [strtol, strtol_ws] at h

theorem memory_reg_num_append (operand : operand_t) (s t : List Nat) (r : operand_t)
    (h : memory_reg_num operand s = some r) : memory_reg_num operand (s ++ t) = some r := by
  unfold memory_reg_num at h ⊢
  split
  · rename_i hrt
    rw [if_pos hrt] at h
    split at h
    · simp at h
    rename_i c2 h2
    rw [getElem?_append_some t h2]
    simp only at h ⊢
    split
    · rename_i hz
      rw [if_pos hz] at h
      exact h
    · rename_i hz
      rw [if_neg hz] at h
      obtain ⟨v, hv, rfl⟩ := Option.map_eq_some'.mp h
      have h1 : 1 ≤ s.length := by
        obtain ⟨hi, -⟩ := List.getElem?_eq_some.mp h2
        omega
      rw [List.drop_append_of_le_length h1, atoi_append t _ v hv]
      rfl
  · rename_i hrt
    rw [if_neg hrt] at h
    exact h

theorem memory_offset_append (operand : operand_t) (s t : List Nat) (i : Nat)
    (has_offset : Bool) (hi : i < s.length) (r : operand_t) (s' : List Nat)
    (h : memory_offset operand s i has_offset = some (r, s')) :
    memory_offset operand (s ++ t) i has_offset = some (r, s' ++ t) := by
  unfold memory_offset at h ⊢
  split
  · rename_i ho
    rw [if_pos ho] at h
    split at h
    · simp at h
    rename_i i2 hscan
    rw [List.drop_append_of_le_length (by omega), scan_from_append _ t _ _ _ hscan]
    simp only at h ⊢
    split at h
    · simp at h
    rename_i n hn
    have hnb := scan_from_bound _ _ _ _ hn
    rw [strlen_append t s n hn]
    simp only at h ⊢
    split
    · rename_i h0
      rw [if_pos h0] at h
      simp at h
    · rename_i h0
      rw [if_neg h0] at h
      split at h
      · simp at h
      rename_i v hv
      have hlt := strtol_drop_lt _ _ _ _ hv
      rw [List.length_set] at hlt
      rw [List.set_append_left _ _ (by omega),
        List.drop_append_of_le_length (by rw [List.length_set]; omega),
        strtol_append 0 t _ v hv]
      simp only [Option.some.injEq, Prod.mk.injEq] at h ⊢
      exact ⟨h.1, by rw [h.2]⟩
  · rename_i ho
    rw [if_neg ho] at h
    simp only [Option.some.injEq, Prod.mk.injEq] at h ⊢
    exact ⟨h.1, by rw [h.2]⟩

theorem parse_operand_memory_append (operand : operand_t) (s t : List Nat)
    (r : operand_t) (s' : List Nat)
    (h : parse_operand_memory operand s = some (r, s')) :
    parse_operand_memory operand (s ++ t) = some (r, s' ++ t) := by
  unfold parse_operand_memory at h ⊢
  split at h
  · simp at h
  rename_i rt h1
  rw [getElem?_append_some t h1]
  simp only at h ⊢
  split at h
  · simp at h
  rename_i i hscan
  have hb := scan_from_bound _ _ _ _ hscan
  have hlen : i < s.length := by
    have : (s.drop 2).length = s.length - 2 := List.length_drop 2 s
    omega
  rw [List.drop_append_of_le_length (by omega), scan_from_append _ t _ _ _ hscan]
  simp only at h ⊢
  rw [List.getElem?_append_left hlen, List.set_append_left _ _ hlen]
  split at h
  · simp at h
  rename_i o2 hreg
  rw [memory_reg_num_append _ _ t o2 hreg]
  exact memory_offset_append o2 _ t i _ (by rw [List.length_set]; exact hlen) r s' h

/-- Locality of parse_operand: a call that stays inside the buffer `s` gives
the same operand when the bytes `t` follow `s`, and leaves `t` as it is. -/
theorem parse_operand_append (operand : operand_t) (s t : List Nat)
    (r : operand_t) (s' : List Nat)
    (h : parse_operand operand s = some (r, s')) :
    parse_operand operand (s ++ t) = some (r, s' ++ t) := by
  unfold parse_operand at h ⊢
  split at h
  · simp at h
  rename_i c h0
  have h1 : 1 ≤ s.length := by
    obtain ⟨hi, -⟩ := List.getElem?_eq_some.mp h0
    omega
  rw [getElem?_append_some t h0]
  simp only at h ⊢
  split
  · rename_i hc
    rw [if_pos hc] at h
    split at h
    · simp at h
    rename_i c1 hc1
    rw [getElem?_append_some t hc1]
    simp only at h ⊢
    split
    · rename_i hz
      rw [if_pos hz] at h
      simp only [Option.some.injEq, Prod.mk.injEq] at h ⊢
      exact ⟨h.1, by rw [h.2]⟩
    · rename_i hz
      rw [if_neg hz] at h
      obtain ⟨v, hv, hr⟩ := Option.map_eq_some'.mp h
      rw [List.drop_append_of_le_length h1, atoi_append t _ v hv]
      simp only [Option.map_some', Option.some.injEq, Prod.mk.injEq] at hr ⊢
      exact ⟨hr.1, by rw [hr.2]⟩
  · rename_i hc
    rw [if_neg hc] at h
    split
    · rename_i hs
      rw [if_pos hs] at h
      simp only [Option.some.injEq, Prod.mk.injEq] at h ⊢
      exact ⟨h.1, by rw [h.2]⟩
    · rename_i hs
      rw [if_neg hs] at h
      split
      · rename_i hk
        rw [if_pos hk] at h
        obtain ⟨v, hv, hr⟩ := Option.map_eq_some'.mp h
        rw [List.drop_append_of_le_length h1, strtol_append 0 t _ v hv]
        simp only [Option.map_some', Option.some.injEq, Prod.mk.injEq] at hr ⊢
        exact ⟨hr.1, by rw [hr.2]⟩
      · rename_i hk
        rw [if_neg hk] at h
        split
        · rename_i hm
          rw [if_pos hm] at h
          exact parse_operand_memory_append _ s t r s' h
        · rename_i hm
          rw [if_neg hm] at h
          split
          · rename_i hd
            rw [if_pos hd] at h
            obtain ⟨v, hv, hr⟩ := Option.map_eq_some'.mp h
            rw [strtol_append 16 t _ v hv]
            simp only [Option.map_some', Option.some.injEq, Prod.mk.injEq] at hr ⊢
            exact ⟨hr.1, by rw [hr.2]⟩
          · rename_i hd
            rw [if_neg hd] at h
            split
            · rename_i hl
              rw [if_pos hl] at h
              simp only [Option.some.injEq, Prod.mk.injEq] at h ⊢
              exact ⟨h.1, by rw [h.2]⟩
            · rename_i hl
              rw [if_neg hl] at h
              obtain ⟨v, hv, hr⟩ := Option.map_eq_some'.mp h
              rw [strlen_append t _ v hv]
              simp only [Option.map_some', Option.some.injEq, Prod.mk.injEq] at hr ⊢
              exact ⟨hr.1, by rw [hr.2]⟩

theorem parse_operand_memory_length (operand : operand_t) (s : List Nat)
    (r : operand_t) (s' : List Nat)
    (h : parse_operand_memory operand s = some (r, s')) : s'.length = s.length := by
  unfold parse_operand_memory at h
  split at h
  · simp at h
  split at h
  · simp at h
  simp only at h
  split at h
  · simp at h
  unfold memory_offset at h
  split at h
  · split at h
    · simp at h
    split at h
    · simp at h
    split at h
    · simp at h
    simp only at h
    split at h
    · simp at h
    simp only [Option.some.injEq, Prod.mk.injEq] at h
    rw [← h.2]
    simp
  · simp only [Option.some.injEq, Prod.mk.injEq] at h
    rw [← h.2]
    simp

theorem parse_operand_length (operand : operand_t) (s : List Nat)
    (r : operand_t) (s' : List Nat)
    (h : parse_operand operand s = some (r, s')) : s'.length = s.length := by
  unfold parse_operand at h
  split at h
  · simp at h
  simp only at h
  split at h
  · split at h
    · simp at h
    split at h
    · simp only [Option.some.injEq, Prod.mk.injEq] at h
      rw [← h.2]
    · obtain ⟨v, -, hr⟩ := Option.map_eq_some'.mp h
      simp only [Prod.mk.injEq] at hr
      rw [← hr.2]
  split at h
  · simp only [Option.some.injEq, Prod.mk.injEq] at h
    rw [← h.2]
  split at h
  · obtain ⟨v, -, hr⟩ := Option.map_eq_some'.mp h
    simp only [Prod.mk.injEq] at hr
    rw [← hr.2]
  split at h
  · exact parse_operand_memory_length _ s r s' h
  split at h
  · obtain ⟨v, -, hr⟩ := Option.map_eq_some'.mp h
    simp only [Prod.mk.injEq] at hr
    rw [← hr.2]
  split at h
  · simp only [Option.some.injEq, Prod.mk.injEq] at h
    rw [← h.2]
  · obtain ⟨v, -, hr⟩ := Option.map_eq_some'.mp h
    simp only [Prod.mk.injEq] at hr
    rw [← hr.2]

/-! ## The operand loop of parse_instruction -/

theorem isspace_bytes {c : Nat} (h : isspace c = true) : c ≠ 0 ∧ c ≠ 91 ∧ c ≠ 93 ∧ c ≠ 44 := by
  simp only [isspace, Bool.or_eq_true, beq_iff_eq, Bool.and_eq_true, decide_eq_true_eq] at h
  omega

/-- One iteration of the operand loop on a byte that neither ends the loop
nor splits. -/
theorem operand_loop_pass (junk : Nat → operand_t) (fuel : Nat) (str : List Nat)
    (i j : Nat) (sqbkt : Bool) (n : Nat) (ins : instruction_t) (c : Nat)
    (hc : str[i]? = some c) (h0 : c ≠ 0)
    (hs : c = 91 ∨ c = 93 ∨ isspace c = false ∨ sqbkt = true) :
    operand_loop junk (fuel + 1) str i j sqbkt n ins =
      operand_loop junk fuel str (i + 1) j (next_sqbkt sqbkt c) n ins := by
  rw [operand_loop, hc]
  simp only [h0, if_false, next_sqbkt]
  by_cases h91 : c = 91
  · simp [h91]
  by_cases h93 : c = 93
  · simp [h93]
  have hns : ¬ (isspace c = true ∧ sqbkt = false) := by
    rcases hs with h | h | h | h
    · exact absurd h h91
    · exact absurd h h93
    · simp [h]
    · simp [h]
  simp only [h91, h93, if_false, hns]

/-- The operand loop passes a run of bytes that neither end it nor split. -/
theorem operand_loop_scan (junk : Nat → operand_t) (post : List Nat) (j n : Nat)
    (ins : instruction_t) :
    ∀ (t : List Nat) (head : List Nat) (sqbkt : Bool) (fuel : Nat), no_split sqbkt t →
      operand_loop junk (fuel + t.length) (head ++ (t ++ post)) head.length j sqbkt n ins =
        operand_loop junk fuel (head ++ (t ++ post)) (head.length + t.length) j
          (sqbkt_after sqbkt t) n ins := by
  intro t
  induction t with
  | nil => intro head sqbkt fuel _; rfl
  | cons c cs ih =>
    intro head sqbkt fuel h
    obtain ⟨h0, hs, hrest⟩ := h
    have hc : (head ++ (c :: cs ++ post))[head.length]? = some c := by
      rw [List.getElem?_append_right (Nat.le_refl _)]
      simp
    have e1 : fuel + (c :: cs).length = (fuel + cs.length) + 1 := by
      simp only [List.length_cons]; omega
    rw [e1, operand_loop_pass junk _ _ _ _ _ _ _ c hc h0 hs]
    have e2 : head ++ (c :: cs ++ post) = (head ++ [c]) ++ (cs ++ post) := by simp
    have e3 : head.length + 1 = (head ++ [c]).length := by simp
    rw [e2, e3, ih (head ++ [c]) _ fuel hrest]
    simp only [List.length_append, List.length_cons, List.length_nil, sqbkt_after,
      List.foldl_cons]
    congr 1
    omega

theorem getElem?_mid (a b : List Nat) (x : Nat) : (a ++ x :: b)[a.length]? = some x := by
  rw [List.getElem?_append_right (Nat.le_refl _)]
  simp

theorem set_mid (a b : List Nat) (x y : Nat) : (a ++ x :: b).set a.length y = a ++ y :: b := by
  rw [List.set_append_right _ _ (Nat.le_refl _)]
  simp

/-- The iteration of the operand loop at the white space after a token and
its comma: the comma is cut off, the token decoded and stored. -/
theorem operand_loop_split_comma (junk : Nat → operand_t) (fuel : Nat)
    (head tok post : List Nat) (w n : Nat) (ins : instruction_t) (hw : isspace w = true)
    (op : operand_t) (b : List Nat)
    (hop : parse_operand (junk n) (tok ++ [0]) = some (op, b)) (hn : n < 3) :
    operand_loop junk (fuel + 1) (head ++ (tok ++ 44 :: w :: post))
        (head.length + (tok.length + 1)) head.length false n ins =
      operand_loop junk fuel (head ++ (b ++ 0 :: post))
        (head.length + (tok.length + 2)) (head.length + (tok.length + 2)) false (n + 1)
        { ins with operands := Function.update ins.operands ⟨n, hn⟩ op } := by
  obtain ⟨w0, w91, w93, -⟩ := isspace_bytes hw
  have e1 : head ++ (tok ++ 44 :: w :: post) = (head ++ tok ++ [44]) ++ w :: post := by simp
  have l1 : head.length + (tok.length + 1) = (head ++ tok ++ [44]).length := by
    simp only [List.length_append, List.length_cons, List.length_nil]; omega
  have hloc := parse_operand_append (junk n) (tok ++ [0]) (0 :: post) op b hop
  rw [operand_loop, e1, l1, getElem?_mid]
  simp only [w0, w91, w93, if_false, hw, and_self, if_true, set_mid]
  have l2 : (head ++ tok ++ [44]).length - 1 = (head ++ tok).length := by simp
  have e2 : head ++ tok ++ [44] ++ 0 :: post = (head ++ tok) ++ 44 :: 0 :: post := by simp
  rw [l2, e2, getElem?_mid]
  simp only [if_true, set_mid]
  have e3 : List.drop head.length (head ++ tok ++ 0 :: 0 :: post) = (tok ++ [0]) ++ 0 :: post := by
    simp
  have e4 : List.take head.length (head ++ tok ++ 0 :: 0 :: post) = head := by
    simp
  rw [e3, hloc]
  simp only [hn, dite_true, e4]
  have l3 : (head ++ tok ++ [44]).length + 1 = head.length + (tok.length + 2) := by
    simp only [List.length_append, List.length_cons, List.length_nil]; omega
  rw [l3]

/-- The iteration of the operand loop at the white space after a token that
no comma follows: the token is decoded and stored. -/
theorem operand_loop_split_last (junk : Nat → operand_t) (fuel : Nat)
    (head tok post : List Nat) (w n : Nat) (ins : instruction_t) (hw : isspace w = true)
    (q : List Nat) (p : Nat) (hq : head ++ tok = q ++ [p]) (hp : p ≠ 44)
    (op : operand_t) (b : List Nat)
    (hop : parse_operand (junk n) (tok ++ [0]) = some (op, b)) (hn : n < 3) :
    operand_loop junk (fuel + 1) (head ++ (tok ++ w :: post))
        (head.length + tok.length) head.length false n ins =
      operand_loop junk fuel (head ++ (b ++ post))
        (head.length + (tok.length + 1)) (head.length + (tok.length + 1)) false (n + 1)
        { ins with operands := Function.update ins.operands ⟨n, hn⟩ op } := by
  obtain ⟨w0, w91, w93, -⟩ := isspace_bytes hw
  have e1 : head ++ (tok ++ w :: post) = (head ++ tok) ++ w :: post := by simp
  have l1 : head.length + tok.length = (head ++ tok).length := by
    simp only [List.length_append]
  have hloc := parse_operand_append (junk n) (tok ++ [0]) post op b hop
  rw [operand_loop, e1, l1, getElem?_mid]
  simp only [w0, w91, w93, if_false, hw, and_self, if_true, set_mid]
  have l2 : (head ++ tok).length - 1 = q.length := by simp [hq]
  have e2 : head ++ tok ++ 0 :: post = q ++ p :: 0 :: post := by simp [hq]
  rw [l2, e2, getElem?_mid]
  simp only [hp, if_false]
  have e3 : List.drop head.length (q ++ p :: 0 :: post) = (tok ++ [0]) ++ post := by
    rw [← e2]; simp
  have e4 : List.take head.length (q ++ p :: 0 :: post) = head := by
    rw [← e2]; simp
  rw [e3, hloc]
  simp only [hn, dite_true, e4]
  have l3 : (head ++ tok).length + 1 = head.length + (tok.length + 1) := by
    simp only [List.length_append, List.length_cons, List.length_nil]; omega
  rw [l3]

/-! ## Operand tokens -/

theorem sqbkt_after_append (sq : Bool) (a b : List Nat) :
    sqbkt_after sq (a ++ b) = sqbkt_after (sqbkt_after sq a) b := by
  simp [sqbkt_after, List.foldl_append]

theorem no_split_append :
    ∀ (a b : List Nat) (sq : Bool), no_split sq a → no_split (sqbkt_after sq a) b →
      no_split sq (a ++ b) := by
  intro a
  induction a with
  | nil => intro b sq _ hb; exact hb
  | cons c cs ih =>
    intro b sq ha hb
    obtain ⟨h0, hs, hrest⟩ := ha
    exact ⟨h0, hs, ih b _ hrest hb⟩

theorem no_split_plain :
    ∀ (t : List Nat), (∀ c ∈ t, c ≠ 0 ∧ isspace c = false ∧ c ≠ 91 ∧ c ≠ 93) →
      no_split false t ∧ sqbkt_after false t = false := by
  intro t
  induction t with
  | nil => intro _; exact ⟨trivial, rfl⟩
  | cons c cs ih =>
    intro h
    obtain ⟨h0, hs, h91, h93⟩ := h c (List.mem_cons_self _ _)
    have hn : next_sqbkt false c = false := by simp [next_sqbkt, h91, h93]
    obtain ⟨i1, i2⟩ := ih (fun d hd => h d (List.mem_cons_of_mem _ hd))
    refine ⟨⟨h0, Or.inr (Or.inr (Or.inl hs)), by rw [hn]; exact i1⟩, ?_⟩
    simp only [sqbkt_after, List.foldl_cons, hn]
    exact i2

theorem no_split_body :
    ∀ (t : List Nat), (∀ c ∈ t, c ≠ 0 ∧ c ≠ 91 ∧ c ≠ 93) →
      no_split true t ∧ sqbkt_after true t = true := by
  intro t
  induction t with
  | nil => intro _; exact ⟨trivial, rfl⟩
  | cons c cs ih =>
    intro h
    obtain ⟨h0, h91, h93⟩ := h c (List.mem_cons_self _ _)
    have hn : next_sqbkt true c = true := by simp [next_sqbkt, h91, h93]
    obtain ⟨i1, i2⟩ := ih (fun d hd => h d (List.mem_cons_of_mem _ hd))
    refine ⟨⟨h0, Or.inr (Or.inr (Or.inr rfl)), by rw [hn]; exact i1⟩, ?_⟩
    simp only [sqbkt_after, List.foldl_cons, hn]
    exact i2

/-- The operand loop passes an operand token without splitting it and is
outside brackets after it. -/
theorem no_split_token (t : List Nat) (h : scannable_token t) :
    no_split false t ∧ sqbkt_after false t = false := by
  rcases h with h | ⟨body, rfl, hb⟩
  · exact no_split_plain t h.1
  · obtain ⟨b1, b2⟩ := no_split_body body hb
    have e : (91 :: (body ++ [93])) = [91] ++ (body ++ [93]) := rfl
    constructor
    · refine ⟨by decide, Or.inl rfl, ?_⟩
      have hn : next_sqbkt false 91 = true := rfl
      rw [hn]
      refine no_split_append body [93] true b1 ?_
      rw [b2]
      exact ⟨by decide, Or.inr (Or.inl rfl), trivial⟩
    · rw [e, sqbkt_after_append, sqbkt_after_append]
      have hn : sqbkt_after false [91] = true := rfl
      rw [hn, b2]
      rfl

theorem no_split_token_comma (t : List Nat) (h : scannable_token t) :
    no_split false (t ++ [44]) ∧ sqbkt_after false (t ++ [44]) = false := by
  obtain ⟨h1, h2⟩ := no_split_token t h
  constructor
  · refine no_split_append t [44] false h1 ?_
    rw [h2]
    exact ⟨by decide, Or.inr (Or.inr (Or.inl (by decide))), trivial⟩
  · rw [sqbkt_after_append, h2]
    rfl

/-- The byte before the white space that ends the last token is no comma. -/
theorem token_last (head t : List Nat) (h : scannable_token t) (hh : ∃ q, head = q ++ [0]) :
    ∃ q p, head ++ t = q ++ [p] ∧ p ≠ 44 := by
  rcases List.eq_nil_or_concat t with rfl | ⟨q, p, hq⟩
  · obtain ⟨q, rfl⟩ := hh
    exact ⟨q, 0, by simp, by decide⟩
  · rw [List.concat_eq_append] at hq
    subst hq
    refine ⟨head ++ q, p, by simp, ?_⟩
    rcases h with h | ⟨body, hb, -⟩
    · intro hp
      apply h.2
      simp [hp]
    · have : (q ++ [p]).getLast? = (91 :: (body ++ [93])).getLast? := by rw [hb]
      rw [List.getLast?_append] at this
      intro hp
      subst hp
      have e : (91 :: (body ++ [93])) = (91 :: body) ++ [93] := rfl
      rw [e, List.getLast?_append] at this
      simp at this

/-! ## parse_instruction on instruction lines -/

/-- The operand loop on the operand text of a line: every token is decoded
by parse_operand and stored in the slot of its number; the other slots and
the operation stay. -/
theorem operand_loop_text (junk : Nat → operand_t) (ws : Nat → Nat) (tail : List Nat)
    (hws : ∀ p, isspace (ws p) = true) :
    ∀ (toks : List (List Nat)) (p : Nat) (head : List Nat) (n : Nat) (ins : instruction_t)
      (f : Nat),
      toks ≠ [] → (∀ t ∈ toks, scannable_token t) → (∀ t ∈ toks, decodable t) →
      n + toks.length ≤ 3 → (∃ q, head = q ++ [0]) →
      ∃ ins', operand_loop junk (f + ((operand_text ws p toks).length + 1))
          (head ++ (operand_text ws p toks ++ 0 :: tail)) head.length head.length false n ins
            = .ok (n + toks.length, ins') ∧
        ins'.operation = ins.operation ∧
        (∀ k : Fin 3, k.val < n ∨ n + toks.length ≤ k.val →
          ins'.operands k = ins.operands k) ∧
        (∀ (i : Nat) (hi : i < toks.length) (h3 : n + i < 3),
          ∃ b, parse_operand (junk (n + i)) (toks[i] ++ [0]) =
            some (ins'.operands ⟨n + i, h3⟩, b)) := by
  intro toks
  induction toks with
  | nil => intro p head n ins f h; exact absurd rfl h
  | cons t ts ih =>
    intro p head n ins f _ htok hdec hn hhead
    have ht := htok t (List.mem_cons_self _ _)
    have hn3 : n < 3 := by simp only [List.length_cons] at hn; omega
    obtain ⟨op, b, hop⟩ : ∃ op b, parse_operand (junk n) (t ++ [0]) = some (op, b) := by
      have := hdec t (List.mem_cons_self _ _) (junk n)
      cases h : parse_operand (junk n) (t ++ [0]) with
      | none => exact absurd h this
      | some r => exact ⟨r.1, r.2, rfl⟩
    have hlen : b.length = t.length + 1 := by
      rw [parse_operand_length _ _ _ _ hop]; simp
    cases ts with
    | nil =>
      obtain ⟨q, c, hq, hc⟩ := token_last head t ht hhead
      obtain ⟨s1, s2⟩ := no_split_token t ht
      refine ⟨{ ins with operands := Function.update ins.operands ⟨n, hn3⟩ op }, ?_, rfl, ?_, ?_⟩
      · have e1 : f + ((operand_text ws p [t]).length + 1) = (f + 1 + 1) + t.length := by
          simp only [operand_text, List.length_append, List.length_cons, List.length_nil]
          omega
        have e2 : head ++ (operand_text ws p [t] ++ 0 :: tail) =
            head ++ (t ++ 10 :: 0 :: tail) := by
          simp [operand_text]
        rw [e1, e2, operand_loop_scan junk _ _ _ _ t head false _ s1, s2,
          operand_loop_split_last junk _ head t _ 10 n ins (by decide) q c hq hc op b hop hn3]
        have e3 : head ++ (b ++ 0 :: tail) = (head ++ b) ++ 0 :: tail := by simp
        have e4 : head.length + (t.length + 1) = (head ++ b).length := by
          simp only [List.length_append, hlen]
        rw [operand_loop, e3, e4, getElem?_mid]
        simp
      · intro k hk
        have : k ≠ ⟨n, hn3⟩ := by
          intro h
          rw [h] at hk
          simp only [List.length_cons, List.length_nil] at hk
          omega
        simp only [Function.update_noteq this]
      · intro i hi h3
        simp only [List.length_cons, List.length_nil] at hi
        have hi0 : i = 0 := by omega
        subst hi0
        exact ⟨b, by simpa using hop⟩
    | cons t' ts' =>
      obtain ⟨s1, s2⟩ := no_split_token_comma t ht
      let ins1 : instruction_t :=
        { ins with operands := Function.update ins.operands ⟨n, hn3⟩ op }
      have hn' : (n + 1) + (t' :: ts').length ≤ 3 := by
        simp only [List.length_cons] at hn ⊢; omega
      obtain ⟨ins', r1, r2, r3, r4⟩ := ih (p + 1) (head ++ b ++ [0]) (n + 1) ins1 f
        (by simp) (fun u hu => htok u (List.mem_cons_of_mem _ hu))
        (fun u hu => hdec u (List.mem_cons_of_mem _ hu)) hn' ⟨head ++ b, rfl⟩
      refine ⟨ins', ?_, r2, ?_, ?_⟩
      · have e1 : f + ((operand_text ws p (t :: t' :: ts')).length + 1) =
            ((f + ((operand_text ws (p + 1) (t' :: ts')).length + 1)) + 1) +
              (t ++ [44]).length := by
          simp only [operand_text, List.length_append, List.length_cons, List.length_nil]
          omega
        have e2 : head ++ (operand_text ws p (t :: t' :: ts') ++ 0 :: tail) =
            head ++ ((t ++ [44]) ++
              (ws (p + 1) :: (operand_text ws (p + 1) (t' :: ts') ++ 0 :: tail))) := by
          simp [operand_text]
        rw [e1, e2, operand_loop_scan junk _ _ _ _ (t ++ [44]) head false _ s1, s2]
        have e3 : head ++ ((t ++ [44]) ++
              (ws (p + 1) :: (operand_text ws (p + 1) (t' :: ts') ++ 0 :: tail))) =
            head ++ (t ++ 44 :: ws (p + 1) ::
              (operand_text ws (p + 1) (t' :: ts') ++ 0 :: tail)) := by
          simp
        have e4 : head.length + (t ++ [44]).length = head.length + (t.length + 1) := by
          simp
        rw [e3, e4, operand_loop_split_comma junk _ head t _ (ws (p + 1)) n ins (hws _) op b
          hop hn3]
        have e5 : head ++ (b ++ 0 ::
              (operand_text ws (p + 1) (t' :: ts') ++ 0 :: tail)) =
            (head ++ b ++ [0]) ++ (operand_text ws (p + 1) (t' :: ts') ++ 0 :: tail) := by
          simp
        have e6 : head.length + (t.length + 2) = (head ++ b ++ [0]).length := by
          simp only [List.length_append, hlen, List.length_cons, List.length_nil]
          omega
        rw [e5, e6, r1]
        simp only [List.length_cons]
        congr 2
        omega
      · intro k hk
        have hk1 : k ≠ ⟨n, hn3⟩ := by
          intro h
          rw [h] at hk
          simp only [List.length_cons] at hk
          omega
        rw [r3 k (by simp only [List.length_cons] at hk ⊢; omega)]
        simp only [ins1, Function.update_noteq hk1]
      · intro i hi h3
        cases i with
        | zero =>
          refine ⟨b, ?_⟩
          have : ins'.operands ⟨n + 0, h3⟩ = op := by
            rw [r3 ⟨n + 0, h3⟩ (Or.inl (by simp))]
            simp [ins1]
          rw [this]
          simpa using hop
        | succ i' =>
          simp only [List.length_cons] at hi
          obtain ⟨b', hb'⟩ := r4 i' (by simp only [List.length_cons]; omega) (by omega)
          refine ⟨b', ?_⟩
          have e7 : n + (i' + 1) = n + 1 + i' := by omega
          have e8 : (⟨n + (i' + 1), h3⟩ : Fin 3) = ⟨n + 1 + i', by omega⟩ := Fin.ext e7
          rw [e8]
          simp only [List.getElem_cons_succ, e7]
          exact hb'

theorem scan_from_stop (stop : Nat → Bool) (x : Nat) (b : List Nat) (hx : stop x = true) :
    ∀ (a : List Nat) (i : Nat), (∀ c ∈ a, stop c = false) →
      scan_from stop (a ++ x :: b) i = some (i + a.length) := by
  intro a
  induction a with
  | nil => intro i _; simp [scan_from, hx]
  | cons c cs ih =>
    intro i h
    have hc := h c (List.mem_cons_self _ _)
    simp only [List.cons_append, scan_from, hc, Bool.false_eq_true, if_false, List.length_cons,
      List.append_eq]
    rw [ih (i + 1) (fun d hd => h d (List.mem_cons_of_mem _ hd))]
    congr 1
    omega

theorem le_value_replicate (n : Nat) : le_value (List.replicate n 0) = 0 := by
  induction n with
  | zero => rfl
  | succ n ih => simp [List.replicate, le_value, ih]

/-- The packed mnemonic: strncpy copies at most four bytes of the mnemonic
and fills up with NUL, so the operation is the little-endian value of the
first four bytes of the mnemonic. -/
theorem strncpy_mnemonic (rest : List Nat) :
    ∀ (n : Nat) (mn : List Nat), (∀ c ∈ mn, c ≠ 0) →
      ∃ bs, strncpy_bytes n (mn ++ 0 :: rest) = some bs ∧
        le_value bs = le_value (mn.take n) := by
  intro n
  induction n with
  | zero => intro mn _; exact ⟨[], rfl, by simp⟩
  | succ n ih =>
    intro mn h
    cases mn with
    | nil =>
      refine ⟨List.replicate (n + 1) 0, by simp [strncpy_bytes], ?_⟩
      rw [le_value_replicate]
      rfl
    | cons c cs =>
      have hc := (h c (List.mem_cons_self _ _))
      obtain ⟨bs, h1, h2⟩ := ih cs (fun d hd => h d (List.mem_cons_of_mem _ hd))
      refine ⟨c :: bs, by simp [strncpy_bytes, hc, h1], ?_⟩
      simp [le_value, h2]

/-- What parse_instruction returns on an instruction line: the operation is
the packed mnemonic, slot i holds what parse_operand returns on token i, and
the slots after the last token get the type OPERAND_NULL. -/
theorem parse_instruction_line (instruction : instruction_t) (junk : Nat → operand_t)
    (ws : Nat → Nat) (mn : List Nat) (toks : List (List Nat)) (tail : List Nat)
    (hmn : ∀ c ∈ mn, c ≠ 0 ∧ isspace c = false) (hws : ∀ p, isspace (ws p) = true)
    (htok : ∀ t ∈ toks, scannable_token t) (hdec : ∀ t ∈ toks, decodable t)
    (hk : toks.length ≤ 3) :
    ∃ ins, parse_instruction instruction junk (asm_line ws mn toks ++ 0 :: tail) = .ok ins ∧
      ins.operation = le_value (mn.take 4) ∧
      (∀ (i : Nat) (hi : i < toks.length) (h3 : i < 3),
        ∃ b, parse_operand (junk i) (toks[i] ++ [0]) = some (ins.operands ⟨i, h3⟩, b)) ∧
      (∀ k : Fin 3, toks.length ≤ k.val →
        ins.operands k = { instruction.operands k with type := OPERAND_NULL }) := by
  obtain ⟨bs, hbs, hval⟩ := strncpy_mnemonic
    (match toks with
      | [] => 0 :: tail
      | _ :: _ => operand_text ws 0 toks ++ 0 :: tail) 4 mn (fun c hc => (hmn c hc).1)
  have hstop : ∀ c ∈ mn, (fun c => c == 0 || isspace c) c = false := by
    intro c hc
    simp [(hmn c hc).1, (hmn c hc).2]
  cases toks with
  | nil =>
    have e1 : asm_line ws mn [] ++ 0 :: tail = mn ++ 10 :: 0 :: tail := by simp [asm_line]
    have hscan := scan_from_stop (fun c => c == 0 || isspace c) 10 (0 :: tail) (by decide) mn 0
      hstop
    rw [Nat.zero_add] at hscan
    simp only at hbs
    refine ⟨pad_operands { instruction with operation := le_value bs } 0, ?_, hval, ?_, ?_⟩
    · unfold parse_instruction
      rw [e1, hscan]
      simp only [set_mid, hbs]
      have e2 : mn ++ 0 :: 0 :: tail = (mn ++ [0]) ++ 0 :: tail := by simp
      have e3 : mn.length + 1 = (mn ++ [0]).length := by simp
      rw [e2, e3, operand_loop, getElem?_mid]
      simp
    · intro i hi
      simp at hi
    · intro k _
      simp [pad_operands]
  | cons t ts =>
    have e1 : asm_line ws mn (t :: ts) ++ 0 :: tail =
        mn ++ ws 0 :: (operand_text ws 0 (t :: ts) ++ 0 :: tail) := by
      simp [asm_line]
    have hscan := scan_from_stop (fun c => c == 0 || isspace c) (ws 0)
      (operand_text ws 0 (t :: ts) ++ 0 :: tail) (by simp [hws 0]) mn 0 hstop
    rw [Nat.zero_add] at hscan
    simp only at hbs
    obtain ⟨ins', r1, r2, r3, r4⟩ := operand_loop_text junk ws tail hws (t :: ts) 0
      (mn ++ [0]) 0 { instruction with operation := le_value bs } (mn.length + tail.length + 2)
      (by simp) htok hdec (by omega) ⟨mn, rfl⟩
    refine ⟨pad_operands ins' (t :: ts).length, ?_, ?_, ?_, ?_⟩
    · unfold parse_instruction
      rw [e1, hscan]
      simp only [set_mid, hbs]
      have e2 : mn ++ 0 :: (operand_text ws 0 (t :: ts) ++ 0 :: tail) =
          (mn ++ [0]) ++ (operand_text ws 0 (t :: ts) ++ 0 :: tail) := by simp
      have e3 : mn.length + 1 = (mn ++ [0]).length := by simp
      have e4 : ((mn ++ [0]) ++ (operand_text ws 0 (t :: ts) ++ 0 :: tail)).length + 1 =
          (mn.length + tail.length + 2) + ((operand_text ws 0 (t :: ts)).length + 1) := by
        simp only [List.length_append, List.length_cons, List.length_nil]
        omega
      rw [e2, e3, e4, r1]
      simp
    · simp only [pad_operands]
      rw [r2, hval]
    · intro i hi h3
      obtain ⟨b, hb⟩ := r4 i hi (by omega)
      refine ⟨b, ?_⟩
      simp only [Nat.zero_add] at hb
      simp only [pad_operands]
      rw [if_neg (by simp only [List.length_cons] at hi ⊢; omega)]
      exact hb
    · intro k hk
      simp only [pad_operands]
      rw [if_pos hk, r3 k (Or.inr (by omega))]

/-! ## parse_operand returns on every unbracketed C string -/

theorem strlen_terminated (rest : List Nat) :
    ∀ (t : List Nat) (i : Nat), ∃ n, scan_from (fun c => c == 0) (t ++ 0 :: rest) i = some n := by
  intro t
  induction t with
  | nil => intro i; exact ⟨i, by simp [scan_from]⟩
  | cons c cs ih =>
    intro i
    simp only [List.cons_append, scan_from]
    split
    · exact ⟨i, rfl⟩
    · exact ih (i + 1)

theorem digit_value_zero : digit_value 0 = 36 := by decide

theorem strtol_digits_terminated (base : Nat) (hb : base ≤ 36) :
    ∀ (s : List Nat) (acc : Nat), 0 ∈ s → ∃ v, strtol_digits base s acc = some v := by
  intro s
  induction s with
  | nil => intro acc h; simp at h
  | cons c cs ih =>
    intro acc h
    simp only [strtol_digits]
    split
    · rename_i hc
      have hc0 : c ≠ 0 := by
        intro h0
        rw [h0, digit_value_zero] at hc
        omega
      rcases List.mem_cons.mp h with h | h
      · exact absurd h.symm hc0
      · exact ih _ h
    · exact ⟨acc, rfl⟩

theorem strtol_body_terminated (base : Nat) (hb : base ≤ 36) (s : List Nat) (h : 0 ∈ s) :
    ∃ v, strtol_body base s = some v := by
  cases s with
  | nil => simp at h
  | cons c cs =>
    simp only [strtol_body]
    split
    · rename_i hc
      have hcs : 0 ∈ cs := by
        rcases List.mem_cons.mp h with h | h
        · omega
        · exact h
      cases cs with
      | nil => simp at hcs
      | cons x ds =>
        simp only
        split
        · rename_i hx
          have hds : 0 ∈ ds := by
            rcases List.mem_cons.mp hcs with h | h
            · omega
            · exact h
          exact strtol_digits_terminated 16 (by decide) ds 0 hds
        · exact strtol_digits_terminated _ (by split <;> decide) (x :: ds) 0 hcs
    · exact strtol_digits_terminated _ (by split <;> omega) (c :: cs) 0 h

theorem strtol_signed_terminated (base : Nat) (hb : base ≤ 36) (s : List Nat) (h : 0 ∈ s) :
    ∃ v, strtol_signed base s = some v := by
  cases s with
  | nil => simp at h
  | cons c cs =>
    simp only [strtol_signed]
    split
    · rename_i hc
      have hcs : 0 ∈ cs := by
        rcases List.mem_cons.mp h with h | h
        · omega
        · exact h
      obtain ⟨v, hv⟩ := strtol_body_terminated base hb cs hcs
      exact ⟨_, by rw [hv]; rfl⟩
    · split
      · rename_i hc
        have hcs : 0 ∈ cs := by
          rcases List.mem_cons.mp h with h | h
          · omega
          · exact h
        obtain ⟨v, hv⟩ := strtol_body_terminated base hb cs hcs
        exact ⟨_, by rw [hv]; rfl⟩
      · obtain ⟨v, hv⟩ := strtol_body_terminated base hb (c :: cs) h
        exact ⟨_, by rw [hv]; rfl⟩

theorem strtol_ws_terminated (base : Nat) (hb : base ≤ 36) :
    ∀ (s : List Nat), 0 ∈ s → ∃ v, strtol_ws base s = some v := by
  intro s
  induction s with
  | nil => intro h; simp at h
  | cons c cs ih =>
    intro h
    simp only [strtol_ws]
    split
    · rename_i hc
      have hcs : 0 ∈ cs := by
        rcases List.mem_cons.mp h with h | h
        · rw [← h] at hc
          exact absurd hc (by decide)
        · exact h
      exact ih hcs
    · exact strtol_signed_terminated base hb (c :: cs) h

/-- The C library strtol returns on every terminated string. -/
theorem strtol_terminated (base : Nat) (hb : base ≤ 36) (s : List Nat) (h : 0 ∈ s) :
    ∃ v, strtol s base = some v := by
  obtain ⟨v, hv⟩ := strtol_ws_terminated base hb s h
  exact ⟨_, by rw [strtol, hv]; rfl⟩

theorem atoi_terminated (s : List Nat) (h : 0 ∈ s) : ∃ v, atoi s = some v := by
  obtain ⟨v, hv⟩ := strtol_terminated 10 (by decide) s h
  exact ⟨_, by rw [atoi, hv]; rfl⟩

/-- The operand decoder stays inside every token that does not start with an
opening bracket. -/
theorem decodable_unbracketed (t : List Nat) (h : t.head? ≠ some 91) : decodable t := by
  intro operand
  cases t with
  | nil => exact fun hn => Option.noConfusion hn
  | cons c cs =>
    have hc : c ≠ 91 := fun hc => h (by rw [hc]; rfl)
    have hz : (0 : Nat) ∈ cs ++ [0] := by simp
    obtain ⟨v1, hv1⟩ := atoi_terminated (cs ++ [0]) hz
    obtain ⟨v2, hv2⟩ := strtol_terminated 0 (by decide) (cs ++ [0]) hz
    obtain ⟨n, hn⟩ := strlen_terminated [] (c :: cs) 0
    have h1 : ∃ c1, (cs ++ [0])[0]? = some c1 := by
      cases cs with
      | nil => exact ⟨0, rfl⟩
      | cons d ds => exact ⟨d, by simp⟩
    obtain ⟨c1, hc1⟩ := h1
    unfold parse_operand
    simp only [List.cons_append, List.getElem?_cons_zero, List.getElem?_cons_succ, hc1,
      List.drop_succ_cons, List.drop_zero, hv1, hv2, Option.map_some', OPERAND_memory, hc,
      if_false, strlen]
    rw [show (c :: (cs ++ [0])) = (c :: cs) ++ 0 :: [] from rfl, hn]
    by_cases hd : 48 ≤ c ∧ c ≤ 57
    · have hz' : (0 : Nat) ∈ (c :: cs) ++ 0 :: [] := by simp
      obtain ⟨v3, hv3⟩ := strtol_terminated 16 (by decide) _ hz'
      rw [hv3]
      simp only [Option.map_some']
      repeat' split
      all_goals exact Option.some_ne_none _
    · simp only [hd, if_false]
      repeat' split
      all_goals exact Option.some_ne_none _

/-- C2 (the code departs from the claim): on the memory tokens [x5, #8] and
[x5] parse_operand returns a memory operand with base reg_type x and the
claimed offset, but with reg_num 0 instead of 5.  The register number is
read by atoi(str+1), which starts at the register letter and so yields 0 for
every base register. -/
theorem parse_operand_memory_reg_num (operand : operand_t) :
    (parse_operand operand (cstr "[x5, #8]" ++ [0])).map Prod.fst =
        some { type := OPERAND_memory, reg_type := REGISTER_x, reg_num := 0, constant := 8 } ∧
      (parse_operand operand (cstr "[x5]" ++ [0])).map Prod.fst =
        some { type := OPERAND_memory, reg_type := REGISTER_x, reg_num := 0, constant := 0 } :=
  ⟨rfl, rfl⟩

/-- C4 (the code departs from the claim): on the line
add x0, x1, x2, lsl #2 parse_instruction does not stop after the third
token; it decodes the fourth token lsl and stores it to operands[3], outside
the three slots of the array. -/
theorem parse_instruction_fourth_token (instruction : instruction_t)
    (junk : Nat → operand_t) :
    parse_instruction instruction junk (cstr "add x0, x1, x2, lsl #2\n" ++ [0]) =
      .error (.store_outside_operands 3) :=
  rfl

theorem asm_line_example :
    asm_line (fun _ => 32) (cstr "ldr") [cstr "x0", cstr "[sp, #8]"] =
      cstr "ldr x0, [sp, #8]\n" := by
  decide

theorem mask32 (v : Nat) : v &&& 0xFFFFFFFF = v % 4294967296 :=
  Nat.and_pow_two_sub_one_eq_mod v 32

theorem put_value_x (m : machine_t) (op : operand_t) (v : Nat)
    (ht : op.type = OPERAND_register) (hr : op.reg_type = REGISTER_x)
    (hk : op.reg_num < 31) :
    put_value m op v =
      .ok { m with registers := Function.update m.registers ⟨op.reg_num, hk⟩ v } := by
  simp [put_value, ht, hr, hk]

theorem put_value_w (m : machine_t) (op : operand_t) (v : Nat)
    (ht : op.type = OPERAND_register) (hr : op.reg_type = REGISTER_w)
    (hk : op.reg_num < 31) :
    put_value m op v =
      .ok { m with
            registers := Function.update m.registers ⟨op.reg_num, hk⟩ (v % 4294967296) } := by
  simp [put_value, ht, hr, hk, mask32]

theorem get_value_x (m : machine_t) (op : operand_t)
    (ht : op.type = OPERAND_register) (hr : op.reg_type = REGISTER_x)
    (hk : op.reg_num < 31) :
    get_value m op = .ok (m.registers ⟨op.reg_num, hk⟩) := by
  simp [get_value, ht, hr, hk]

theorem get_value_w (m : machine_t) (op : operand_t)
    (ht : op.type = OPERAND_register) (hr : op.reg_type = REGISTER_w)
    (hk : op.reg_num < 31) :
    get_value m op = .ok (m.registers ⟨op.reg_num, hk⟩ % 4294967296) := by
  simp [get_value, ht, hr, hk, mask32]

theorem get_value_constant (m : machine_t) (op : operand_t)
    (ht : op.type = OPERAND_constant) : get_value m op = .ok op.constant := by
  simp [get_value, ht]

/-- C6: for every machine state, every register number k from 0 to 30 and
every value v, put_value on the register operand x<k> followed by get_value
on x<k> returns v; put_value on w<k> followed by get_value on w<k> returns
v mod 2^32, and the register then holds v mod 2^32, its upper 32 bits zero. -/
theorem put_value_get_value (m : machine_t) (k : Nat) (hk : k ≤ 30) (v c : Nat) :
    (∃ m', put_value m ⟨OPERAND_register, REGISTER_x, k, c⟩ v = .ok m' ∧
        get_value m' ⟨OPERAND_register, REGISTER_x, k, c⟩ = .ok v) ∧
      (∃ m', put_value m ⟨OPERAND_register, REGISTER_w, k, c⟩ v = .ok m' ∧
        get_value m' ⟨OPERAND_register, REGISTER_w, k, c⟩ = .ok (v % 2 ^ 32) ∧
        m'.registers ⟨k, by omega⟩ = v % 2 ^ 32 ∧ m'.registers ⟨k, by omega⟩ < 2 ^ 32) := by
  have hk' : k < 31 := by omega
  constructor
  · refine ⟨_, put_value_x m ⟨OPERAND_register, REGISTER_x, k, c⟩ v rfl rfl hk', ?_⟩
    rw [get_value_x _ ⟨OPERAND_register, REGISTER_x, k, c⟩ rfl rfl hk']
    simp
  · refine ⟨_, put_value_w m ⟨OPERAND_register, REGISTER_w, k, c⟩ v rfl rfl hk', ?_, ?_, ?_⟩
    · rw [get_value_w _ ⟨OPERAND_register, REGISTER_w, k, c⟩ rfl rfl hk']
      simp
    · simp
    · simp only [Function.update_same]
      exact Nat.mod_lt _ (by decide)

theorem put_value_get_value_witness :
    7 ≤ 30 ∧
    ((∃ m', put_value (init_machine 0 8 4096 256 [] 256 260)
          ⟨OPERAND_register, REGISTER_x, 7, 0⟩ 18446744073709551615 = .ok m' ∧
        get_value m' ⟨OPERAND_register, REGISTER_x, 7, 0⟩ = .ok 18446744073709551615) ∧
      (∃ m', put_value (init_machine 0 8 4096 256 [] 256 260)
          ⟨OPERAND_register, REGISTER_w, 7, 0⟩ 18446744073709551615 = .ok m' ∧
        get_value m' ⟨OPERAND_register, REGISTER_w, 7, 0⟩ =
          .ok (18446744073709551615 % 2 ^ 32) ∧
        m'.registers ⟨7, by omega⟩ = 18446744073709551615 % 2 ^ 32 ∧
        m'.registers ⟨7, by omega⟩ < 2 ^ 32)) :=
  ⟨by decide,
   put_value_get_value (init_machine 0 8 4096 256 [] 256 260) 7 (by decide)
     18446744073709551615 0⟩

/-! ## execute: arithmetic, logic and shifts -/

theorem sub64_eq (a b : Nat) :
    sub64 a b = (((a : Int) - (b : Int)) % 18446744073709551616).toNat := by
  unfold sub64
  omega

theorem put_value_register (m : machine_t) (op : operand_t) (v : Nat)
    (ht : op.type = OPERAND_register)
    (hr : op.reg_type = REGISTER_x ∨ op.reg_type = REGISTER_w) (hk : op.reg_num < 31) :
    put_value m op v =
      .ok { m with
            registers := Function.update m.registers ⟨op.reg_num, hk⟩
              (if op.reg_type = REGISTER_w then v % 4294967296 else v) } := by
  rcases hr with hr | hr
  · rw [put_value_x m op v ht hr hk]
    simp [hr]
  · rw [put_value_w m op v ht hr hk]
    simp [hr]

/-- C8: for an instruction add, sub, and, orr, lsl or lsr (shift amount
below 64 for the shifts) whose first operand is a register x<d> or w<d>,
d from 0 to 30, and whose second and third operands resolve by get_value to
a and b, execute returns the machine state in which register d holds the
result r (a+b, a-b, a AND b, a OR b, a*2^b or a/2^b, taken modulo 2^64),
reduced modulo 2^32 when the destination is a w register, and in which
every other register, sp, pc, the condition flags, the stack with its
bounds and the code are as before. -/
theorem execute_arithmetic (m : machine_t) (ins : instruction_t) (a b : Nat)
    (ht : (ins.operands 0).type = OPERAND_register)
    (hr : (ins.operands 0).reg_type = REGISTER_x ∨ (ins.operands 0).reg_type = REGISTER_w)
    (hd : (ins.operands 0).reg_num ≤ 30)
    (ha : get_value m (ins.operands 1) = .ok a)
    (hb : get_value m (ins.operands 2) = .ok b)
    (hop : ins.operation = OPERATION_add ∨ ins.operation = OPERATION_sub ∨
      ins.operation = OPERATION_and ∨ ins.operation = OPERATION_orr ∨
      ((ins.operation = OPERATION_lsl ∨ ins.operation = OPERATION_lsr) ∧ b < 64)) :
    ∃ r : Nat,
      (ins.operation = OPERATION_add → r = (a + b) % 2 ^ 64) ∧
      (ins.operation = OPERATION_sub → r = (((a : Int) - (b : Int)) % 2 ^ 64).toNat) ∧
      (ins.operation = OPERATION_and → r = a &&& b) ∧
      (ins.operation = OPERATION_orr → r = a ||| b) ∧
      (ins.operation = OPERATION_lsl → r = (a * 2 ^ b) % 2 ^ 64) ∧
      (ins.operation = OPERATION_lsr → r = a / 2 ^ b) ∧
      execute m ins =
        .ok { m with
              registers := Function.update m.registers
                ⟨(ins.operands 0).reg_num, by omega⟩
                (if (ins.operands 0).reg_type = REGISTER_w then r % 2 ^ 32 else r) } := by
  have hk : (ins.operands 0).reg_num < 31 := by omega
  have hput := fun v => put_value_register m (ins.operands 0) v ht hr hk
  rcases hop with h | h | h | h | ⟨h | h, hlt⟩
  · refine ⟨(a + b) % 2 ^ 64, fun _ => rfl, ?_, ?_, ?_, ?_, ?_, ?_⟩
    iterate 5 (intro h'; rw [h] at h'; exact absurd h' (by decide))
    simp only [execute, h, execute_binary, ha, hb, hput]
    rfl
  · refine ⟨sub64 a b, ?_, fun _ => sub64_eq a b, ?_, ?_, ?_, ?_, ?_⟩
    iterate 5 (intro h'; rw [h] at h'; exact absurd h' (by decide))
    simp only [execute, h, execute_binary, ha, hb, hput]
    rfl
  · refine ⟨a &&& b, ?_, ?_, fun _ => rfl, ?_, ?_, ?_, ?_⟩
    iterate 5 (intro h'; rw [h] at h'; exact absurd h' (by decide))
    simp only [execute, h, execute_binary, ha, hb, hput]
    rfl
  · refine ⟨a ||| b, ?_, ?_, ?_, fun _ => rfl, ?_, ?_, ?_⟩
    iterate 5 (intro h'; rw [h] at h'; exact absurd h' (by decide))
    simp only [execute, h, execute_binary, ha, hb, hput]
    rfl
  · refine ⟨(a <<< b) % 2 ^ 64, ?_, ?_, ?_, ?_, fun _ => by rw [Nat.shiftLeft_eq], ?_, ?_⟩
    iterate 5 (intro h'; rw [h] at h'; exact absurd h' (by decide))
    simp only [execute, h, execute_binary, ha, hb, hput, hlt, if_true]
    rfl
  · refine ⟨a >>> b, ?_, ?_, ?_, ?_, ?_, fun _ => Nat.shiftRight_eq_div_pow a b, ?_⟩
    iterate 5 (intro h'; rw [h] at h'; exact absurd h' (by decide))
    simp only [execute, h, execute_binary, ha, hb, hput, hlt, if_true]
    rfl

/-! ## Decode and execute: mov and add -/

theorem parse_operand_imm (operand : operand_t) (n : Nat) (hn : n < 2147483648)
    (rest : List Nat) :
    parse_operand operand (35 :: (decimal n ++ 0 :: rest)) =
      some ({ operand with type := OPERAND_constant, reg_type := 0, constant := n },
        35 :: (decimal n ++ 0 :: rest)) := by
  have hs := strtol_numeral 0 (Or.inl rfl) n hn rest
  obtain ⟨v, hv, hi⟩ := Option.map_eq_some'.mp hs
  have hu : uint32_of_int (n : Int) = n := by
    unfold uint32_of_int
    omega
  unfold parse_operand
  simp [hv, hi, hu]

theorem plain_token_of_bytes (t : List Nat)
    (h : ∀ c ∈ t, c ≠ 0 ∧ isspace c = false ∧ c ≠ 91 ∧ c ≠ 93 ∧ c ≠ 44) : plain_token t := by
  refine ⟨fun c hc => ⟨(h c hc).1, (h c hc).2.1, (h c hc).2.2.1, (h c hc).2.2.2.1⟩, ?_⟩
  intro hl
  exact (h 44 (List.mem_of_getLast?_eq_some hl)).2.2.2.2 rfl

theorem numeral_token (c : Nat)
    (hc : c ≠ 0 ∧ isspace c = false ∧ c ≠ 91 ∧ c ≠ 93 ∧ c ≠ 44) (n : Nat) :
    scannable_token (c :: decimal n) := by
  refine Or.inl (plain_token_of_bytes _ ?_)
  intro d hd
  rcases List.mem_cons.mp hd with rfl | hd
  · exact hc
  · have := decimal_bytes n d hd
    refine ⟨by omega, ?_, by omega, by omega, by omega⟩
    simp only [isspace, Bool.or_eq_false_iff, beq_eq_false_iff_ne, Bool.and_eq_false_iff,
      decide_eq_false_iff_not]
    omega

theorem reg_token_decodable (k : Nat) (hk : k < 256) : decodable (120 :: decimal k) := by
  intro o
  have := parse_operand_reg o REGISTER_x (Or.inr rfl) k hk []
  rw [List.cons_append, this]
  exact Option.some_ne_none _

theorem imm_token_decodable (n : Nat) (hn : n < 2147483648) : decodable (35 :: decimal n) := by
  intro o
  have := parse_operand_imm o n hn []
  rw [List.cons_append, this]
  exact Option.some_ne_none _

/-- The instruction decoded from the line mov x<d>, #<n>. -/
theorem parse_mov_line (instruction : instruction_t) (junk : Nat → operand_t) (d n : Nat)
    (hd : d < 256) (hn : n < 2147483648) (tail : List Nat) :
    ∃ ins, parse_instruction instruction junk
        (cstr "mov x" ++ decimal d ++ cstr ", #" ++ decimal n ++ cstr "\n" ++ 0 :: tail) =
          .ok ins ∧
      ins.operation = OPERATION_mov ∧
      ins.operands 0 = { junk 0 with type := OPERAND_register, reg_type := REGISTER_x,
                                     reg_num := d } ∧
      ins.operands 1 = { junk 1 with type := OPERAND_constant, reg_type := 0,
                                     constant := n } := by
  have eline : cstr "mov x" ++ decimal d ++ cstr ", #" ++ decimal n ++ cstr "\n" =
      asm_line (fun _ => 32) (cstr "mov") [120 :: decimal d, 35 :: decimal n] := by
    have e1 : cstr "mov x" = [109, 111, 118, 32, 120] := by decide
    have e2 : cstr ", #" = [44, 32, 35] := by decide
    have e3 : cstr "\n" = [10] := by decide
    have e4 : cstr "mov" = [109, 111, 118] := by decide
    simp [asm_line, operand_text, e1, e2, e3, e4]
  obtain ⟨ins, h1, h2, h3, -⟩ := parse_instruction_line instruction junk (fun _ => 32)
    (cstr "mov") [120 :: decimal d, 35 :: decimal n] tail (by decide) (fun _ => rfl)
    (by
      intro t ht
      simp only [List.mem_cons, List.mem_singleton, List.not_mem_nil, or_false] at ht
      rcases ht with rfl | rfl
      · exact numeral_token 120 (by decide) d
      · exact numeral_token 35 (by decide) n)
    (by
      intro t ht
      simp only [List.mem_cons, List.mem_singleton, List.not_mem_nil, or_false] at ht
      rcases ht with rfl | rfl
      · exact reg_token_decodable d hd
      · exact imm_token_decodable n hn)
    (by simp)
  refine ⟨ins, by rw [eline]; exact h1, by rw [h2]; decide, ?_, ?_⟩
  · obtain ⟨b, hb⟩ := h3 0 (by simp) (by decide)
    have := parse_operand_reg (junk 0) REGISTER_x (Or.inr rfl) d hd []
    simp only [List.getElem_cons_zero, List.cons_append] at hb
    rw [this] at hb
    simp only [Option.some.injEq, Prod.mk.injEq] at hb
    exact hb.1.symm
  · obtain ⟨b, hb⟩ := h3 1 (by simp) (by decide)
    have := parse_operand_imm (junk 1) n hn []
    simp only [List.getElem_cons_succ, List.getElem_cons_zero, List.cons_append] at hb
    rw [this] at hb
    simp only [Option.some.injEq, Prod.mk.injEq] at hb
    exact hb.1.symm

/-- The instruction decoded from the line add x<e>, x<d>, x<d>. -/
theorem parse_add_line (instruction : instruction_t) (junk : Nat → operand_t) (e d : Nat)
    (he : e < 256) (hd : d < 256) (tail : List Nat) :
    ∃ ins, parse_instruction instruction junk
        (cstr "add x" ++ decimal e ++ cstr ", x" ++ decimal d ++ cstr ", x" ++ decimal d ++
          cstr "\n" ++ 0 :: tail) = .ok ins ∧
      ins.operation = OPERATION_add ∧
      ins.operands 0 = { junk 0 with type := OPERAND_register, reg_type := REGISTER_x,
                                     reg_num := e } ∧
      ins.operands 1 = { junk 1 with type := OPERAND_register, reg_type := REGISTER_x,
                                     reg_num := d } ∧
      ins.operands 2 = { junk 2 with type := OPERAND_register, reg_type := REGISTER_x,
                                     reg_num := d } := by
  have eline : cstr "add x" ++ decimal e ++ cstr ", x" ++ decimal d ++ cstr ", x" ++
      decimal d ++ cstr "\n" =
      asm_line (fun _ => 32) (cstr "add")
        [120 :: decimal e, 120 :: decimal d, 120 :: decimal d] := by
    have e1 : cstr "add x" = [97, 100, 100, 32, 120] := by decide
    have e2 : cstr ", x" = [44, 32, 120] := by decide
    have e3 : cstr "\n" = [10] := by decide
    have e4 : cstr "add" = [97, 100, 100] := by decide
    simp [asm_line, operand_text, e1, e2, e3, e4]
  obtain ⟨ins, h1, h2, h3, -⟩ := parse_instruction_line instruction junk (fun _ => 32)
    (cstr "add") [120 :: decimal e, 120 :: decimal d, 120 :: decimal d] tail (by decide)
    (fun _ => rfl)
    (by
      intro t ht
      simp only [List.mem_cons, List.mem_singleton, List.not_mem_nil, or_false] at ht
      rcases ht with rfl | rfl | rfl
      · exact numeral_token 120 (by decide) e
      · exact numeral_token 120 (by decide) d
      · exact numeral_token 120 (by decide) d)
    (by
      intro t ht
      simp only [List.mem_cons, List.mem_singleton, List.not_mem_nil, or_false] at ht
      rcases ht with rfl | rfl | rfl
      · exact reg_token_decodable e he
      · exact reg_token_decodable d hd
      · exact reg_token_decodable d hd)
    (by simp)
  have key : ∀ (i : Nat) (k : Nat) (hk : k < 256) (h3' : i < 3)
      (hi : i < [120 :: decimal e, 120 :: decimal d, 120 :: decimal d].length),
      [120 :: decimal e, 120 :: decimal d, 120 :: decimal d][i] = 120 :: decimal k →
      ins.operands ⟨i, h3'⟩ = ⟨OPERAND_register, REGISTER_x, k, (junk i).constant⟩ := by
    intro i k hk h3' hi htk
    obtain ⟨b, hb⟩ := h3 i hi h3'
    have := parse_operand_reg (junk i) REGISTER_x (Or.inr rfl) k hk []
    rw [htk, List.cons_append, this] at hb
    simp only [Option.some.injEq, Prod.mk.injEq] at hb
    exact hb.1.symm
  exact ⟨ins, by rw [eline]; exact h1, by rw [h2]; decide,
    key 0 e he (by decide) (by simp) rfl,
    key 1 d hd (by decide) (by simp) rfl,
    key 2 d hd (by decide) (by simp) rfl⟩

theorem execute_mov (m : machine_t) (ins : instruction_t)
    (h : ins.operation = OPERATION_mov) :
    execute m ins =
      match get_value m (ins.operands 1) with
      | .error e => .error e
      | .ok v => put_value m (ins.operands 0) v := by
  simp [execute, h]

theorem execute_add (m : machine_t) (ins : instruction_t)
    (h : ins.operation = OPERATION_add) :
    execute m ins =
      execute_binary m (ins.operands 0) (ins.operands 1) (ins.operands 2)
        (fun a b => .ok ((a + b) % 18446744073709551616)) := by
  simp [execute, h]

/-- C7: for register numbers d, e from 0 to 30 and an immediate n below
2^31, the line mov x<d>, #<n> decodes to an instruction with the operation
code of mov and the line add x<e>, x<d>, x<d> to one with the operation code
of add; executing the first and then the second leaves 2*n in register e. -/
theorem mov_add_scenario (m : machine_t) (i1 i2 : instruction_t)
    (junk1 junk2 : Nat → operand_t) (d e n : Nat) (hd : d ≤ 30) (he : e ≤ 30)
    (hn : n < 2 ^ 31) :
    ∃ ins1 m1 ins2 m2,
      parse_instruction i1 junk1
        (cstr "mov x" ++ decimal d ++ cstr ", #" ++ decimal n ++ cstr "\n" ++ [0]) =
          .ok ins1 ∧
      ins1.operation = OPERATION_mov ∧
      execute m ins1 = .ok m1 ∧
      parse_instruction i2 junk2
        (cstr "add x" ++ decimal e ++ cstr ", x" ++ decimal d ++ cstr ", x" ++ decimal d ++
          cstr "\n" ++ [0]) = .ok ins2 ∧
      ins2.operation = OPERATION_add ∧
      execute m1 ins2 = .ok m2 ∧
      m2.registers ⟨e, by omega⟩ = 2 * n := by
  have hd' : d < 31 := by omega
  have he' : e < 31 := by omega
  obtain ⟨ins1, p1, o1, a1, b1⟩ := parse_mov_line i1 junk1 d n (by omega) (by omega) []
  obtain ⟨ins2, p2, o2, a2, b2, c2⟩ := parse_add_line i2 junk2 e d (by omega) (by omega) []
  have x1 : execute m ins1 =
      .ok { m with registers := Function.update m.registers ⟨d, hd'⟩ n } := by
    rw [execute_mov m ins1 o1, get_value_constant m _ (by rw [b1])]
    simp only
    rw [put_value_x m _ _ (by rw [a1]) (by rw [a1]) (by rw [a1]; exact hd')]
    simp [a1, b1]
  have g1 : ∀ m1 : machine_t, get_value m1 (ins2.operands 1) = .ok (m1.registers ⟨d, hd'⟩) := by
    intro m1
    rw [get_value_x _ _ (by rw [b2]) (by rw [b2]) (by rw [b2]; exact hd')]
    simp [b2]
  have g2 : ∀ m1 : machine_t, get_value m1 (ins2.operands 2) = .ok (m1.registers ⟨d, hd'⟩) := by
    intro m1
    rw [get_value_x _ _ (by rw [c2]) (by rw [c2]) (by rw [c2]; exact hd')]
    simp [c2]
  have g3 : ∀ (m1 : machine_t) (v : Nat), put_value m1 (ins2.operands 0) v =
      .ok { m1 with registers := Function.update m1.registers ⟨e, he'⟩ v } := by
    intro m1 v
    rw [put_value_x _ _ _ (by rw [a2]) (by rw [a2]) (by rw [a2]; exact he')]
    simp [a2]
  have x2 : execute { m with registers := Function.update m.registers ⟨d, hd'⟩ n } ins2 =
      .ok { m with
            registers :=
              Function.update (Function.update m.registers ⟨d, hd'⟩ n) ⟨e, he'⟩
                ((n + n) % 18446744073709551616) } := by
    rw [execute_add _ ins2 o2, execute_binary, g1, g2]
    simp only [Function.update_same]
    rw [g3]
  refine ⟨ins1, _, ins2, _, p1, o1, x1, p2, o2, x2, ?_⟩
  simp only [Function.update_same]
  omega

theorem mov_add_scenario_witness :
    ∃ ins1 m1 ins2 m2,
      parse_instruction ⟨0, fun _ => ⟨1, 2, 3, 4⟩⟩ (fun _ => ⟨1, 2, 3, 4⟩)
        (cstr "mov x0, #5\n" ++ [0]) = .ok ins1 ∧
      ins1.operation = OPERATION_mov ∧
      execute (init_machine 0 8 4096 256 [] 256 260) ins1 = .ok m1 ∧
      parse_instruction ⟨0, fun _ => ⟨1, 2, 3, 4⟩⟩ (fun _ => ⟨1, 2, 3, 4⟩)
        (cstr "add x1, x0, x0\n" ++ [0]) = .ok ins2 ∧
      ins2.operation = OPERATION_add ∧
      execute m1 ins2 = .ok m2 ∧
      m2.registers ⟨1, by omega⟩ = 10 :=
  mov_add_scenario (init_machine 0 8 4096 256 [] 256 260) ⟨0, fun _ => ⟨1, 2, 3, 4⟩⟩
    ⟨0, fun _ => ⟨1, 2, 3, 4⟩⟩ (fun _ => ⟨1, 2, 3, 4⟩) (fun _ => ⟨1, 2, 3, 4⟩) 0 1 5
    (by decide) (by decide) (by decide)

theorem execute_arithmetic_witness :
    ∃ m', execute (init_machine 0 8 4096 256 [] 256 260)
        ⟨OPERATION_add, fun k => if k = 0 then ⟨114, 119, 1, 0⟩
          else ⟨35, 0, 0, if k = 1 then 4294967295 else 7⟩⟩ = .ok m' ∧
      m'.registers 1 = 6 := by
  obtain ⟨r, h1, -, -, -, -, -, h7⟩ :=
    execute_arithmetic (init_machine 0 8 4096 256 [] 256 260)
      ⟨OPERATION_add, fun k => if k = 0 then ⟨114, 119, 1, 0⟩
        else ⟨35, 0, 0, if k = 1 then 4294967295 else 7⟩⟩ 4294967295 7
      rfl (Or.inr rfl) (by decide) rfl rfl (Or.inl rfl)
  refine ⟨_, h7, ?_⟩
  rw [h1 rfl]
  decide

/-! ## execute: ldr and str -/

theorem le_bytes_length : ∀ (n v : Nat), (le_bytes n v).length = n := by
  intro n
  induction n with
  | zero => intro v; rfl
  | succ n ih => intro v; simp [le_bytes, ih]

theorem le_value_le_bytes : ∀ (n v : Nat), v < 256 ^ n → le_value (le_bytes n v) = v := by
  intro n
  induction n with
  | zero => intro v h; simp only [pow_zero, Nat.lt_one_iff] at h; subst h; rfl
  | succ n ih =>
    intro v h
    have h' : v / 256 < 256 ^ n := by
      rw [Nat.div_lt_iff_lt_mul (by decide)]
      rw [pow_succ] at h
      exact h
    simp only [le_bytes, le_value, ih _ h']
    omega

theorem execute_str (m : machine_t) (ins : instruction_t)
    (h : ins.operation = OPERATION_str) :
    execute m ins = execute_ldr_str m (ins.operands 0) (ins.operands 1) OPERATION_str := by
  simp [execute, h]

theorem execute_ldr (m : machine_t) (ins : instruction_t)
    (h : ins.operation = OPERATION_ldr) :
    execute m ins = execute_ldr_str m (ins.operands 0) (ins.operands 1) OPERATION_ldr := by
  simp [execute, h]

/-- The address of the memory operand [sp] is the value of sp. -/
theorem get_memory_address_sp (m : machine_t) (op : operand_t)
    (ht : op.type = OPERAND_memory) (hr : op.reg_type = REGISTER_sp) (hc : op.constant = 0)
    (hsp : m.sp < 2 ^ 64) : get_memory_address m op = .ok m.sp := by
  simp only [get_memory_address, ht, get_value, hr, hc]
  simp
  omega

theorem sub64_self (s : Nat) : sub64 s s = 0 := by
  unfold sub64
  omega

/-- The instructions decoded from the lines str x0, [sp] and ldr x1, [sp]. -/
theorem parse_str_ldr_lines (i1 i2 : instruction_t) (junk1 junk2 : Nat → operand_t) :
    (∃ ins, parse_instruction i1 junk1 (cstr "str x0, [sp]\n" ++ [0]) = .ok ins ∧
        ins.operation = OPERATION_str ∧
        ins.operands 0 = ⟨OPERAND_register, REGISTER_x, 0, (junk1 0).constant⟩ ∧
        ins.operands 1 = ⟨OPERAND_memory, REGISTER_sp, (junk1 1).reg_num, 0⟩) ∧
      (∃ ins, parse_instruction i2 junk2 (cstr "ldr x1, [sp]\n" ++ [0]) = .ok ins ∧
        ins.operation = OPERATION_ldr ∧
        ins.operands 0 = ⟨OPERAND_register, REGISTER_x, 1, (junk2 0).constant⟩ ∧
        ins.operands 1 = ⟨OPERAND_memory, REGISTER_sp, (junk2 1).reg_num, 0⟩) :=
  ⟨⟨_, rfl, rfl, rfl, rfl⟩, ⟨_, rfl, rfl, rfl, rfl⟩⟩

/-- Storing an x register at [sp] when sp is the lowest address of the
stack buffer: the eight bytes of the register go to the start of the
buffer. -/
theorem execute_str_at_top (m : machine_t) (ins : instruction_t) (k c r : Nat)
    (buf : List Nat) (hop : ins.operation = OPERATION_str)
    (h0 : ins.operands 0 = ⟨OPERAND_register, REGISTER_x, k, c⟩)
    (h1 : ins.operands 1 = ⟨OPERAND_memory, REGISTER_sp, r, 0⟩) (hk : k < 31)
    (hsp : m.sp < 2 ^ 64) (htop : m.stack_top = m.sp) (hbuf : m.stack = some buf)
    (hlen : 8 ≤ buf.length) :
    execute m ins =
      .ok { m with stack := some (le_bytes 8 (m.registers ⟨k, hk⟩) ++ buf.drop 8) } := by
  have hoff : sub64 m.stack_top m.sp = 0 := by rw [htop]; exact sub64_self _
  rw [execute_str m ins hop, execute_ldr_str,
    get_memory_address_sp m _ (by rw [h1]) (by rw [h1]) (by rw [h1]) hsp]
  simp only [hoff, h0, hbuf]
  rw [get_value_x m _ rfl rfl hk]
  simp [write_bytes, le_bytes_length, hlen]

/-- Loading an x register from [sp] when sp is the lowest address of the
stack buffer: the register gets the value of the first eight bytes. -/
theorem execute_ldr_at_top (m : machine_t) (ins : instruction_t) (k c r : Nat)
    (buf : List Nat) (hop : ins.operation = OPERATION_ldr)
    (h0 : ins.operands 0 = ⟨OPERAND_register, REGISTER_x, k, c⟩)
    (h1 : ins.operands 1 = ⟨OPERAND_memory, REGISTER_sp, r, 0⟩) (hk : k < 31)
    (hsp : m.sp < 2 ^ 64) (htop : m.stack_top = m.sp) (hbuf : m.stack = some buf)
    (hlen : 8 ≤ buf.length) :
    execute m ins =
      .ok { m with
            registers := Function.update m.registers ⟨k, hk⟩ (le_value (buf.take 8)) } := by
  have hoff : sub64 m.stack_top m.sp = 0 := by rw [htop]; exact sub64_self _
  have hput := fun v =>
    put_value_x m ⟨OPERAND_register, REGISTER_x, k, c⟩ v rfl rfl hk
  rw [execute_ldr m ins hop, execute_ldr_str,
    get_memory_address_sp m _ (by rw [h1]) (by rw [h1]) (by rw [h1]) hsp]
  simp [hoff, h0, hbuf, read_bytes, hlen, hput]

/-- C9: in the machine state after initialisation with stack pointer s
(stack_top = s, a zeroed buffer of one word of at least 8 bytes) and with
x0 = v, executing the decoded str x0, [sp] and then the decoded
ldr x1, [sp] leaves v in x1, and the 8 bytes of the stack buffer at the
logical address s (buffer offset s - stack_top) are the little-endian bytes
of v. -/
theorem str_ldr_round_trip (REGISTER_NULL WORD_SIZE_BYTES s pc : Nat)
    (code : List instruction_t) (code_top code_bot v : Nat) (i1 i2 : instruction_t)
    (junk1 junk2 : Nat → operand_t) (hs : s < 2 ^ 64) (hv : v < 2 ^ 64)
    (hW : 8 ≤ WORD_SIZE_BYTES) :
    ∃ ins1 m1 ins2 m2 buf,
      parse_instruction i1 junk1 (cstr "str x0, [sp]\n" ++ [0]) = .ok ins1 ∧
      execute
        { init_machine REGISTER_NULL WORD_SIZE_BYTES s pc code code_top code_bot with
          registers := Function.update (fun _ => REGISTER_NULL) 0 v } ins1 = .ok m1 ∧
      parse_instruction i2 junk2 (cstr "ldr x1, [sp]\n" ++ [0]) = .ok ins2 ∧
      execute m1 ins2 = .ok m2 ∧
      m2.registers 1 = v ∧
      m2.stack = some buf ∧
      read_bytes buf (s - m2.stack_top) 8 = some (le_bytes 8 v) := by
  obtain ⟨⟨ins1, p1, o1, a1, b1⟩, ⟨ins2, p2, o2, a2, b2⟩⟩ :=
    parse_str_ldr_lines i1 i2 junk1 junk2
  have x1 := execute_str_at_top
    { init_machine REGISTER_NULL WORD_SIZE_BYTES s pc code code_top code_bot with
      registers := Function.update (fun _ => REGISTER_NULL) 0 v }
    ins1 0 _ _ (List.replicate WORD_SIZE_BYTES 0) o1 a1 b1 (by decide) hs rfl rfl
    (by simp [hW])
  have hlen : 8 ≤ (le_bytes 8 v ++ List.drop 8 (List.replicate WORD_SIZE_BYTES 0)).length := by
    simp [le_bytes_length]
  have x2 := execute_ldr_at_top
    { init_machine REGISTER_NULL WORD_SIZE_BYTES s pc code code_top code_bot with
      registers := Function.update (fun _ => REGISTER_NULL) 0 v
      stack := some (le_bytes 8 v ++ List.drop 8 (List.replicate WORD_SIZE_BYTES 0)) }
    ins2 1 _ _ _ o2 a2 b2 (by decide) hs rfl rfl hlen
  have htake : List.take 8 (le_bytes 8 v ++ List.drop 8 (List.replicate WORD_SIZE_BYTES 0)) =
      le_bytes 8 v := by
    rw [List.take_append_of_le_length (by simp [le_bytes_length])]
    exact List.take_of_length_le (by simp [le_bytes_length])
  refine ⟨ins1, _, ins2, _, _, p1, x1, p2, x2, ?_, rfl, ?_⟩
  · simp only [Function.update_same]
    show le_value (List.take 8 (le_bytes 8 v ++ _)) = v
    rw [htake]
    exact le_value_le_bytes 8 v (by simpa using hv)
  · simp only [init_machine, Nat.sub_self, read_bytes, Nat.zero_add, hlen, if_true,
      List.drop_zero, htake]

theorem str_ldr_round_trip_witness :
    ∃ ins1 m1 ins2 m2 buf,
      parse_instruction ⟨0, fun _ => ⟨1, 2, 3, 4⟩⟩ (fun _ => ⟨1, 2, 3, 4⟩)
        (cstr "str x0, [sp]\n" ++ [0]) = .ok ins1 ∧
      execute
        { init_machine 0 8 4096 256 [] 256 260 with
          registers := Function.update (fun _ => 0) 0 42 } ins1 = .ok m1 ∧
      parse_instruction ⟨0, fun _ => ⟨1, 2, 3, 4⟩⟩ (fun _ => ⟨1, 2, 3, 4⟩)
        (cstr "ldr x1, [sp]\n" ++ [0]) = .ok ins2 ∧
      execute m1 ins2 = .ok m2 ∧
      m2.registers 1 = 42 ∧
      m2.stack = some buf ∧
      read_bytes buf (4096 - m2.stack_top) 8 = some [42, 0, 0, 0, 0, 0, 0, 0] :=
  str_ldr_round_trip 0 8 4096 256 [] 256 260 42 ⟨0, fun _ => ⟨1, 2, 3, 4⟩⟩
    ⟨0, fun _ => ⟨1, 2, 3, 4⟩⟩ (fun _ => ⟨1, 2, 3, 4⟩) (fun _ => ⟨1, 2, 3, 4⟩)
    (by decide) (by decide) (by decide)

/-- An ldr or str with an x register whose 8 bytes do not lie inside the
stack buffer at the byte offset stack_top - address: execute accesses memory
outside the buffer. -/
theorem execute_ldr_str_fault (m : machine_t) (ins : instruction_t) (a : Nat)
    (buf : List Nat)
    (hop : ins.operation = OPERATION_ldr ∨ ins.operation = OPERATION_str)
    (ht : (ins.operands 0).type = OPERAND_register)
    (hr : (ins.operands 0).reg_type = REGISTER_x) (hk : (ins.operands 0).reg_num < 31)
    (haddr : get_memory_address m (ins.operands 1) = .ok a) (hbuf : m.stack = some buf)
    (hoff : buf.length < sub64 m.stack_top a + 8) :
    execute m ins = .error (.outside_stack (sub64 m.stack_top a)) := by
  have hnot : ¬ (sub64 m.stack_top a + 8 ≤ buf.length) := by omega
  rcases hop with hop | hop
  · rw [execute_ldr m ins hop, execute_ldr_str, haddr]
    simp [hr, hbuf, read_bytes, hnot]
  · rw [execute_str m ins hop, execute_ldr_str, haddr]
    simp only [hr, hbuf]
    rw [get_value_x m _ ht hr hk]
    simp [write_bytes, le_bytes_length, hnot]

/-- The instructions decoded from the lines ldr and str x0, [sp, #-64] and
x0, [sp, #64]. -/
theorem parse_ldr_str_offset_lines (i : instruction_t) (junk : Nat → operand_t) :
    (∃ ins, parse_instruction i junk (cstr "ldr x0, [sp, #-64]\n" ++ [0]) = .ok ins ∧
        ins.operation = OPERATION_ldr ∧
        ins.operands 0 = ⟨OPERAND_register, REGISTER_x, 0, (junk 0).constant⟩ ∧
        ins.operands 1 = ⟨OPERAND_memory, REGISTER_sp, (junk 1).reg_num, 4294967232⟩) ∧
      (∃ ins, parse_instruction i junk (cstr "str x0, [sp, #-64]\n" ++ [0]) = .ok ins ∧
        ins.operation = OPERATION_str ∧
        ins.operands 0 = ⟨OPERAND_register, REGISTER_x, 0, (junk 0).constant⟩ ∧
        ins.operands 1 = ⟨OPERAND_memory, REGISTER_sp, (junk 1).reg_num, 4294967232⟩) ∧
      (∃ ins, parse_instruction i junk (cstr "ldr x0, [sp, #64]\n" ++ [0]) = .ok ins ∧
        ins.operation = OPERATION_ldr ∧
        ins.operands 0 = ⟨OPERAND_register, REGISTER_x, 0, (junk 0).constant⟩ ∧
        ins.operands 1 = ⟨OPERAND_memory, REGISTER_sp, (junk 1).reg_num, 64⟩) ∧
      (∃ ins, parse_instruction i junk (cstr "str x0, [sp, #64]\n" ++ [0]) = .ok ins ∧
        ins.operation = OPERATION_str ∧
        ins.operands 0 = ⟨OPERAND_register, REGISTER_x, 0, (junk 0).constant⟩ ∧
        ins.operands 1 = ⟨OPERAND_memory, REGISTER_sp, (junk 1).reg_num, 64⟩) :=
  ⟨⟨_, rfl, rfl, rfl, rfl⟩, ⟨_, rfl, rfl, rfl, rfl⟩, ⟨_, rfl, rfl, rfl, rfl⟩,
    ⟨_, rfl, rfl, rfl, rfl⟩⟩

theorem get_memory_address_sp_offset (m : machine_t) (op : operand_t)
    (ht : op.type = OPERAND_memory) (hr : op.reg_type = REGISTER_sp) :
    get_memory_address m op = .ok ((m.sp + op.constant) % 18446744073709551616) := by
  simp [get_memory_address, ht, get_value, hr]

/-- C10 (the code departs from the claim): execute never grows the stack.
With sp = 0x1000 after initialisation (a buffer of one word of 8 bytes), the
decoded ldr and str on [sp, #-64] and on [sp, #64] go to execute_ldr_str,
which does not call grow_stack: it adds the byte offset
stack_top - address (modulo 2^64) to the buffer pointer and accesses memory
outside the buffer, at the offsets shown. -/
theorem execute_ldr_str_outside_stack (REGISTER_NULL pc : Nat) (code : List instruction_t)
    (code_top code_bot : Nat) (i : instruction_t) (junk : Nat → operand_t) :
    (∃ ins, parse_instruction i junk (cstr "ldr x0, [sp, #-64]\n" ++ [0]) = .ok ins ∧
        execute (init_machine REGISTER_NULL 8 4096 pc code code_top code_bot) ins =
          .error (.outside_stack 18446744069414584384)) ∧
      (∃ ins, parse_instruction i junk (cstr "str x0, [sp, #-64]\n" ++ [0]) = .ok ins ∧
        execute (init_machine REGISTER_NULL 8 4096 pc code code_top code_bot) ins =
          .error (.outside_stack 18446744069414584384)) ∧
      (∃ ins, parse_instruction i junk (cstr "ldr x0, [sp, #64]\n" ++ [0]) = .ok ins ∧
        execute (init_machine REGISTER_NULL 8 4096 pc code code_top code_bot) ins =
          .error (.outside_stack 18446744073709551552)) ∧
      (∃ ins, parse_instruction i junk (cstr "str x0, [sp, #64]\n" ++ [0]) = .ok ins ∧
        execute (init_machine REGISTER_NULL 8 4096 pc code code_top code_bot) ins =
          .error (.outside_stack 18446744073709551552)) := by
  obtain ⟨⟨i1, p1, o1, a1, b1⟩, ⟨i2, p2, o2, a2, b2⟩, ⟨i3, p3, o3, a3, b3⟩,
    ⟨i4, p4, o4, a4, b4⟩⟩ := parse_ldr_str_offset_lines i junk
  have e1 : sub64 4096 ((4096 + 4294967232) % 18446744073709551616) =
      18446744069414584384 := by decide
  have e2 : sub64 4096 ((4096 + 64) % 18446744073709551616) = 18446744073709551552 := by
    decide
  have key : ∀ (ins : instruction_t) (c r off : Nat),
      ins.operation = OPERATION_ldr ∨ ins.operation = OPERATION_str →
      ins.operands 0 = ⟨OPERAND_register, REGISTER_x, 0, c⟩ →
      ins.operands 1 = ⟨OPERAND_memory, REGISTER_sp, r, off⟩ →
      8 < sub64 4096 ((4096 + off) % 18446744073709551616) + 8 →
      execute (init_machine REGISTER_NULL 8 4096 pc code code_top code_bot) ins =
        .error (.outside_stack (sub64 4096 ((4096 + off) % 18446744073709551616))) := by
    intro ins c r off hop h0 h1 hlt
    have haddr := get_memory_address_sp_offset
      (init_machine REGISTER_NULL 8 4096 pc code code_top code_bot) (ins.operands 1)
      (by rw [h1]) (by rw [h1])
    have hc : (ins.operands 1).constant = off := by rw [h1]
    rw [hc] at haddr
    exact execute_ldr_str_fault _ ins _ (List.replicate 8 0) hop (by rw [h0]) (by rw [h0])
      (by rw [h0]; exact Nat.zero_lt_succ 30) haddr rfl (by simpa using hlt)
  refine ⟨⟨i1, p1, ?_⟩, ⟨i2, p2, ?_⟩, ⟨i3, p3, ?_⟩, ⟨i4, p4, ?_⟩⟩
  · rw [← e1]
    exact key i1 _ _ _ (Or.inl o1) a1 b1 (by rw [e1]; decide)
  · rw [← e1]
    exact key i2 _ _ _ (Or.inr o2) a2 b2 (by rw [e1]; decide)
  · rw [← e2]
    exact key i3 _ _ _ (Or.inl o3) a3 b3 (by rw [e2]; decide)
  · rw [← e2]
    exact key i4 _ _ _ (Or.inr o4) a4 b4 (by rw [e2]; decide)

/-! ## Load and store inside the bounds, memory addresses, the zero register -/

/-- An ldr or str of x0 at [sp, #off] whose 8 bytes do not lie inside the
stack buffer at the byte offset stack_top - address. -/
theorem execute_ldr_str_sp_fault (m : machine_t) (ins : instruction_t) (c r off : Nat)
    (buf : List Nat)
    (hop : ins.operation = OPERATION_ldr ∨ ins.operation = OPERATION_str)
    (h0 : ins.operands 0 = ⟨OPERAND_register, REGISTER_x, 0, c⟩)
    (h1 : ins.operands 1 = ⟨OPERAND_memory, REGISTER_sp, r, off⟩)
    (hbuf : m.stack = some buf)
    (hlt : buf.length < sub64 m.stack_top ((m.sp + off) % 18446744073709551616) + 8) :
    execute m ins =
      .error (.outside_stack (sub64 m.stack_top ((m.sp + off) % 18446744073709551616))) := by
  have haddr := get_memory_address_sp_offset m (ins.operands 1) (by rw [h1]) (by rw [h1])
  have hc : (ins.operands 1).constant = off := by rw [h1]
  rw [hc] at haddr
  exact execute_ldr_str_fault m ins _ buf hop (by rw [h0]) (by rw [h0])
    (by rw [h0]; exact Nat.zero_lt_succ 30) haddr hbuf hlt

/-- The instructions decoded from the lines ldr x0, [sp, #8] and
str x0, [sp, #8]. -/
theorem parse_ldr_str_sp8_lines (i : instruction_t) (junk : Nat → operand_t) :
    (∃ ins, parse_instruction i junk (cstr "ldr x0, [sp, #8]\n" ++ [0]) = .ok ins ∧
        ins.operation = OPERATION_ldr ∧
        ins.operands 0 = ⟨OPERAND_register, REGISTER_x, 0, (junk 0).constant⟩ ∧
        ins.operands 1 = ⟨OPERAND_memory, REGISTER_sp, (junk 1).reg_num, 8⟩) ∧
      (∃ ins, parse_instruction i junk (cstr "str x0, [sp, #8]\n" ++ [0]) = .ok ins ∧
        ins.operation = OPERATION_str ∧
        ins.operands 0 = ⟨OPERAND_register, REGISTER_x, 0, (junk 0).constant⟩ ∧
        ins.operands 1 = ⟨OPERAND_memory, REGISTER_sp, (junk 1).reg_num, 8⟩) :=
  ⟨⟨_, rfl, rfl, rfl, rfl⟩, ⟨_, rfl, rfl, rfl, rfl⟩⟩

/-- C11 (the code departs from the claim): execute_ldr_str adds the byte
offset stack_top - address to the buffer pointer, not address - stack_top.
With stack_top = sp = 0x1000, stack_bot = 0x100f and a buffer of 16 bytes,
the decoded ldr x0, [sp, #8] and str x0, [sp, #8] have the address
a = 0x1008 with stack_top <= a and a + 7 <= stack_bot, and execute accesses
the byte offset 2^64 - 8, outside the buffer, instead of the offsets 8 to
15. -/
theorem execute_ldr_str_reversed_offset (i : instruction_t) (junk : Nat → operand_t)
    (registers : Fin 31 → Nat) (pc : Nat) (code : List instruction_t)
    (code_top code_bot conditions : Nat) :
    (∃ ins, parse_instruction i junk (cstr "ldr x0, [sp, #8]\n" ++ [0]) = .ok ins ∧
        get_memory_address
          ⟨registers, 4096, pc, code, code_top, code_bot, some (List.replicate 16 0), 4096,
            4111, conditions⟩ (ins.operands 1) = .ok 4104 ∧
        execute
          ⟨registers, 4096, pc, code, code_top, code_bot, some (List.replicate 16 0), 4096,
            4111, conditions⟩ ins = .error (.outside_stack 18446744073709551608)) ∧
      (∃ ins, parse_instruction i junk (cstr "str x0, [sp, #8]\n" ++ [0]) = .ok ins ∧
        get_memory_address
          ⟨registers, 4096, pc, code, code_top, code_bot, some (List.replicate 16 0), 4096,
            4111, conditions⟩ (ins.operands 1) = .ok 4104 ∧
        execute
          ⟨registers, 4096, pc, code, code_top, code_bot, some (List.replicate 16 0), 4096,
            4111, conditions⟩ ins = .error (.outside_stack 18446744073709551608)) := by
  obtain ⟨⟨i1, p1, o1, a1, b1⟩, ⟨i2, p2, o2, a2, b2⟩⟩ := parse_ldr_str_sp8_lines i junk
  have e1 : sub64 4096 ((4096 + 8) % 18446744073709551616) = 18446744073709551608 := by
    decide
  have e2 : (4096 + 8) % 18446744073709551616 = 4104 := by decide
  have key : ∀ ins : instruction_t,
      ins.operation = OPERATION_ldr ∨ ins.operation = OPERATION_str →
      ins.operands 0 = ⟨OPERAND_register, REGISTER_x, 0, (junk 0).constant⟩ →
      ins.operands 1 = ⟨OPERAND_memory, REGISTER_sp, (junk 1).reg_num, 8⟩ →
      get_memory_address
          ⟨registers, 4096, pc, code, code_top, code_bot, some (List.replicate 16 0), 4096,
            4111, conditions⟩ (ins.operands 1) = .ok 4104 ∧
        execute
          ⟨registers, 4096, pc, code, code_top, code_bot, some (List.replicate 16 0), 4096,
            4111, conditions⟩ ins = .error (.outside_stack 18446744073709551608) := by
    intro ins hop h0 h1
    constructor
    · rw [get_memory_address_sp_offset _ _ (by rw [h1]) (by rw [h1]), h1]
      simp only [e2]
    · rw [← e1]
      exact execute_ldr_str_sp_fault _ ins _ _ 8 (List.replicate 16 0) hop h0 h1 rfl
        (by
          show (List.replicate 16 0).length <
            sub64 4096 ((4096 + 8) % 18446744073709551616) + 8
          rw [e1]
          decide)
  exact ⟨⟨i1, p1, key i1 (Or.inl o1) a1 b1⟩, ⟨i2, p2, key i2 (Or.inr o2) a2 b2⟩⟩

/-- C12 (the code departs from the claim): the offset of a memory operand
is kept in the uint32_t field constant, and get_memory_address adds it to
the 64-bit base without sign extension.  With sp = 0x1000 the operand
decoded from [sp, #-64] has constant = 2^32 - 64 and resolves to
0x100000fc0, not to 0xfc0. -/
theorem get_memory_address_negative_offset (operand : operand_t) (REGISTER_NULL pc : Nat)
    (code : List instruction_t) (code_top code_bot : Nat) :
    ∃ op b, parse_operand operand (cstr "[sp, #-64]" ++ [0]) = some (op, b) ∧
      op.constant = 4294967232 ∧
      get_memory_address (init_machine REGISTER_NULL 8 4096 pc code code_top code_bot) op =
        .ok 4294971328 := by
  refine ⟨⟨OPERAND_memory, REGISTER_sp, operand.reg_num, 4294967232⟩, _, rfl, rfl, ?_⟩
  rw [get_memory_address_sp_offset _ _ rfl rfl]
  have e : (4096 + 4294967232) % 18446744073709551616 = 4294971328 := by decide
  simp only [init_machine, e]

/-- C18 (the code departs from the claim): get_value has no case for the
zero register.  On the operand decoded from xzr or wzr (reg_num 31) it reads
registers[31], outside the array registers[0..30], instead of returning
0. -/
theorem get_value_zero_register (m : machine_t) (operand : operand_t) :
    (parse_operand operand (cstr "xzr" ++ [0])).map Prod.fst =
        some ⟨OPERAND_register, REGISTER_x, 31, operand.constant⟩ ∧
      (parse_operand operand (cstr "wzr" ++ [0])).map Prod.fst =
        some ⟨OPERAND_register, REGISTER_w, 31, operand.constant⟩ ∧
      get_value m ⟨OPERAND_register, REGISTER_x, 31, operand.constant⟩ =
        .error (.outside_registers 31) ∧
      get_value m ⟨OPERAND_register, REGISTER_w, 31, operand.constant⟩ =
        .error (.outside_registers 31) := by
  refine ⟨rfl, rfl, ?_, ?_⟩ <;> simp [get_value]

/-! ## grow_stack -/

theorem malloc_length (heap : Nat → Nat) (size : Nat) : (malloc heap size).length = size := by
  simp [malloc]

theorem sub64_small (x y : Nat) (hy : y ≤ x) (hx : x < 2 ^ 64) : sub64 x y = x - y := by
  unfold sub64
  omega

/-- The buffer after the memset and the memcpy of the lower branch of
grow_stack: zero bytes, then the old buffer. -/
theorem grow_below_buffer (heap : Nat → Nat) (old : List Nat) (k : Nat) :
    ∃ z, memset_zero (malloc heap (k + old.length)) 0 k = some z ∧
      memcpy z k old old.length = some (List.replicate k 0 ++ old) := by
  refine ⟨List.replicate k 0 ++ (malloc heap (k + old.length)).drop k, ?_, ?_⟩
  · simp [memset_zero, write_bytes, malloc_length]
  · simp [memcpy, write_bytes, malloc_length]

/-- The buffer after the memset and the memcpy of the upper branch of
grow_stack: the first n bytes of the old buffer, then zero bytes. -/
theorem grow_above_buffer (heap : Nat → Nat) (old : List Nat) (n z : Nat)
    (hn : n ≤ old.length) :
    ∃ b, memset_zero (malloc heap (n + z)) n z = some b ∧
      memcpy b 0 old n = some (old.take n ++ List.replicate z 0) := by
  refine ⟨(malloc heap (n + z)).take n ++ List.replicate z 0, ?_, ?_⟩
  · simp [memset_zero, write_bytes, malloc_length]
  · have h1 : ((malloc heap (n + z)).take n).length = n := by
      simp [malloc_length]
    simp only [memcpy, hn, if_true, write_bytes, Nat.zero_add, List.length_take,
      List.length_append, List.length_replicate, h1, List.take_zero, List.nil_append]
    rw [if_pos (by omega)]
    congr 2
    · have : min n old.length = n := by omega
      rw [this, List.drop_append_of_le_length (by omega), List.drop_of_length_le (by omega)]
      simp

/-- A target inside the bounds: grow_stack does nothing. -/
theorem grow_stack_inside (W : Nat) (heap : Nat → Nat) (m : machine_t) (t : Nat)
    (h1 : m.stack_top ≤ t) (h2 : t ≤ m.stack_bot) : grow_stack W heap m t = .ok m := by
  unfold grow_stack
  rw [if_neg (by omega), if_neg (by omega)]

/-- A target below the bounds: the new lower bound is the target rounded
down to a multiple of the word size, and the new buffer is zero bytes
followed by the old buffer. -/
theorem grow_stack_below (W : Nat) (heap : Nat → Nat) (m : machine_t) (t : Nat)
    (old : List Nat) (ht : t < m.stack_top) (htb : m.stack_top ≤ m.stack_bot)
    (hb : m.stack_bot + 1 < 2 ^ 64) (hs : m.stack = some old)
    (hl : old.length = m.stack_bot - m.stack_top + 1) :
    grow_stack W heap m t =
      .ok { m with
            stack := some (List.replicate (m.stack_top - (t - t % W)) 0 ++ old)
            stack_top := t - t % W } := by
  have hr : t % W ≤ t := Nat.mod_le t W
  have hnt : (if t % W ≠ 0 then sub64 t (t % W) else t) = t - t % W := by
    split
    · exact sub64_small t _ hr (by omega)
    · omega
  have hsize : (sub64 m.stack_bot (t - t % W) + 1) % 18446744073709551616 =
      (m.stack_top - (t - t % W)) + old.length := by
    rw [sub64_small _ _ (by omega) (by omega)]
    omega
  have hk : sub64 m.stack_top (t - t % W) = m.stack_top - (t - t % W) :=
    sub64_small _ _ (by omega) (by omega)
  have hn : (sub64 m.stack_bot m.stack_top + 1) % 18446744073709551616 = old.length := by
    rw [sub64_small _ _ htb (by omega)]
    omega
  obtain ⟨z, hz1, hz2⟩ := grow_below_buffer heap old (m.stack_top - (t - t % W))
  unfold grow_stack
  rw [if_pos ht]
  simp only [hnt, hsize, hk, hn, hz1, hs, hz2]

/-- A target above the bounds: the new upper bound is one less than the
next multiple of the word size above the target, and the new buffer is the
old buffer without its last byte, followed by zero bytes. -/
theorem grow_stack_above (W : Nat) (heap : Nat → Nat) (m : machine_t) (t : Nat)
    (old : List Nat) (hW : 0 < W) (ht : m.stack_bot < t) (htb : m.stack_top ≤ m.stack_bot)
    (hb : t + W < 2 ^ 64) (hs : m.stack = some old)
    (hl : old.length = m.stack_bot - m.stack_top + 1) :
    grow_stack W heap m t =
      .ok { m with
            stack := some (old.take (m.stack_bot - m.stack_top) ++
              List.replicate (t + W - t % W - m.stack_bot) 0)
            stack_bot := t + W - t % W - 1 } := by
  have hr : t % W < W := Nat.mod_lt t hW
  have hN : (if t % W ≠ 0 then (t + (W - t % W)) % 18446744073709551616
      else (t + W) % 18446744073709551616) = t + W - t % W := by
    split
    · omega
    · omega
  have hsize : sub64 (t + W - t % W) m.stack_top =
      (m.stack_bot - m.stack_top) + (t + W - t % W - m.stack_bot) := by
    rw [sub64_small _ _ (by omega) (by omega)]
    omega
  have hoff : sub64 m.stack_bot m.stack_top = m.stack_bot - m.stack_top :=
    sub64_small _ _ htb (by omega)
  have hlen : sub64 (t + W - t % W) m.stack_bot = t + W - t % W - m.stack_bot :=
    sub64_small _ _ (by omega) (by omega)
  have hbot : sub64 (t + W - t % W) 1 = t + W - t % W - 1 :=
    sub64_small _ _ (by omega) (by omega)
  obtain ⟨b, hb1, hb2⟩ := grow_above_buffer heap old (m.stack_bot - m.stack_top)
    (t + W - t % W - m.stack_bot) (by omega)
  unfold grow_stack
  rw [if_neg (by omega), if_pos ht]
  simp only [hN, hsize, hoff, hlen, hbot, hb1, hs, hb2]

/-- The next multiple of the word size above a target. -/
theorem next_multiple (W t : Nat) (hW : 0 < W) :
    W ∣ t + W - t % W ∧ t < t + W - t % W ∧ ∀ M, W ∣ M → t < M → t + W - t % W ≤ M := by
  have hr : t % W < W := Nat.mod_lt t hW
  have hd : W * (t / W) + t % W = t := Nat.div_add_mod t W
  have hN : t + W - t % W = W * (t / W + 1) := by
    rw [Nat.mul_add, Nat.mul_one]
    omega
  refine ⟨⟨t / W + 1, hN⟩, by omega, ?_⟩
  rintro M ⟨q, rfl⟩ hlt
  rw [hN]
  apply Nat.mul_le_mul_left
  have := Nat.div_lt_of_lt_mul hlt
  omega

/-- C13 (the code departs from the claim): growing the stack at its upper
end loses the byte at the old stack_bot.  With stack_top = 0x1000,
stack_bot = 0x1007, the buffer 1, 2, ..., 8 and the word size 8,
grow_stack(0x1008) returns a buffer of 16 bytes whose byte at the logical
address 0x1007 (buffer offset 7) is 0, not 8: the memset starts at the
offset stack_bot - stack_top and the memcpy copies stack_bot - stack_top
bytes, one less than the buffer holds. -/
theorem grow_stack_loses_last_byte (heap : Nat → Nat) (registers : Fin 31 → Nat)
    (sp pc : Nat) (code : List instruction_t) (code_top code_bot conditions : Nat) :
    grow_stack 8 heap
        ⟨registers, sp, pc, code, code_top, code_bot, some [1, 2, 3, 4, 5, 6, 7, 8], 4096,
          4103, conditions⟩ 4104 =
      .ok ⟨registers, sp, pc, code, code_top, code_bot,
        some [1, 2, 3, 4, 5, 6, 7, 0, 0, 0, 0, 0, 0, 0, 0, 0], 4096, 4111, conditions⟩ := by
  have h := grow_stack_above 8 heap
    ⟨registers, sp, pc, code, code_top, code_bot, some [1, 2, 3, 4, 5, 6, 7, 8], 4096,
      4103, conditions⟩ 4104 [1, 2, 3, 4, 5, 6, 7, 8] (by omega)
    (show 4103 < 4104 by omega) (show 4096 ≤ 4103 by omega) (by norm_num) rfl
    (show 8 = 4103 - 4096 + 1 by omega)
  rw [h]
  simp [List.replicate]

/-- C14: a target inside the bounds leaves the machine state as it is; and
for every target, grow_stack returns a state whose stack_top is at most the
old one and whose stack_bot is at least the old one, on which a second
grow_stack with the same target changes nothing.  The stack buffer covers
the bounds, and the addresses stay below 2^64. -/
theorem grow_stack_idempotent_monotone (W : Nat) (heap : Nat → Nat) (m : machine_t)
    (t : Nat) (old : List Nat) (hW : 0 < W) (htb : m.stack_top ≤ m.stack_bot)
    (hs : m.stack = some old) (hl : old.length = m.stack_bot - m.stack_top + 1)
    (hb : m.stack_bot + 1 < 2 ^ 64) (ht : t + W < 2 ^ 64) :
    (m.stack_top ≤ t → t ≤ m.stack_bot → grow_stack W heap m t = .ok m) ∧
      ∃ m', grow_stack W heap m t = .ok m' ∧ m'.stack_top ≤ m.stack_top ∧
        m.stack_bot ≤ m'.stack_bot ∧ grow_stack W heap m' t = .ok m' := by
  refine ⟨grow_stack_inside W heap m t, ?_⟩
  have hr : t % W < W := Nat.mod_lt t hW
  have hr' : t % W ≤ t := Nat.mod_le t W
  by_cases h1 : t < m.stack_top
  · refine ⟨_, grow_stack_below W heap m t old h1 htb hb hs hl, ?_, Nat.le_refl _, ?_⟩
    · show t - t % W ≤ m.stack_top
      omega
    · apply grow_stack_inside
      · show t - t % W ≤ t
        omega
      · show t ≤ m.stack_bot
        omega
  · by_cases h2 : m.stack_bot < t
    · refine ⟨_, grow_stack_above W heap m t old hW h2 htb ht hs hl, Nat.le_refl _, ?_, ?_⟩
      · show m.stack_bot ≤ t + W - t % W - 1
        omega
      · apply grow_stack_inside
        · show m.stack_top ≤ t
          omega
        · show t ≤ t + W - t % W - 1
          omega
    · exact ⟨m, grow_stack_inside W heap m t (by omega) (by omega), Nat.le_refl _,
        Nat.le_refl _, grow_stack_inside W heap m t (by omega) (by omega)⟩

theorem grow_stack_idempotent_monotone_witness :
    ∃ m', grow_stack 8 (fun _ => 170) (init_machine 0 8 4096 256 [] 256 260) 4000 = .ok m' ∧
      m'.stack_top ≤ 4096 ∧ 4103 ≤ m'.stack_bot ∧
      grow_stack 8 (fun _ => 170) m' 4000 = .ok m' :=
  (grow_stack_idempotent_monotone 8 (fun _ => 170) (init_machine 0 8 4096 256 [] 256 260)
    4000 (List.replicate 8 0) (by decide) (by decide) rfl (by decide) (by decide)
    (by decide)).2

/-- C15: with W the word size, a target t below stack_top makes stack_top
t - (t mod W) and leaves stack_bot; a target above stack_bot leaves
stack_top and makes stack_bot + 1 the smallest multiple of W strictly
greater than t (stack_bot = t + W - 1 for an aligned t).  In both cases
the new buffer has stack_bot - stack_top + 1 bytes, and every byte at a
logical address inside the new bounds and outside the old ones is 0.  The
stack buffer covers the old bounds, and the addresses stay below 2^64. -/
theorem grow_stack_bounds_and_fill (W : Nat) (heap : Nat → Nat) (m : machine_t)
    (t : Nat) (old : List Nat) (hW : 0 < W) (htb : m.stack_top ≤ m.stack_bot)
    (hs : m.stack = some old) (hl : old.length = m.stack_bot - m.stack_top + 1)
    (hb : m.stack_bot + 1 < 2 ^ 64) (ht : t + W < 2 ^ 64) :
    (t < m.stack_top →
        ∃ m' buf, grow_stack W heap m t = .ok m' ∧ m'.stack_top = t - t % W ∧
          m'.stack_bot = m.stack_bot ∧ m'.stack = some buf ∧
          buf.length = m'.stack_bot - m'.stack_top + 1 ∧
          ∀ a, m'.stack_top ≤ a → a < m.stack_top → buf[a - m'.stack_top]? = some 0) ∧
      (m.stack_bot < t →
        ∃ m' buf, grow_stack W heap m t = .ok m' ∧ m'.stack_top = m.stack_top ∧
          W ∣ m'.stack_bot + 1 ∧ t < m'.stack_bot + 1 ∧
          (∀ M, W ∣ M → t < M → m'.stack_bot + 1 ≤ M) ∧
          (t % W = 0 → m'.stack_bot = t + W - 1) ∧ m'.stack = some buf ∧
          buf.length = m'.stack_bot - m'.stack_top + 1 ∧
          ∀ a, m.stack_bot < a → a ≤ m'.stack_bot → buf[a - m'.stack_top]? = some 0) := by
  have hr : t % W < W := Nat.mod_lt t hW
  have hr' : t % W ≤ t := Nat.mod_le t W
  constructor
  · intro h1
    refine ⟨_, _, grow_stack_below W heap m t old h1 htb hb hs hl, rfl, rfl, rfl, ?_, ?_⟩
    · simp only [List.length_append, List.length_replicate, hl]
      omega
    · intro a ha1 ha2
      have ha1' : t - t % W ≤ a := ha1
      show (List.replicate (m.stack_top - (t - t % W)) 0 ++ old)[a - (t - t % W)]? = some 0
      rw [List.getElem?_append_left (by simp only [List.length_replicate]; omega),
        List.getElem?_replicate]
      rw [if_pos (by omega)]
  · intro h2
    obtain ⟨n1, n2, n3⟩ := next_multiple W t hW
    have hN : t + W - t % W - 1 + 1 = t + W - t % W := by omega
    refine ⟨_, _, grow_stack_above W heap m t old hW h2 htb ht hs hl, rfl, ?_, ?_, ?_, ?_, rfl,
      ?_, ?_⟩
    · show W ∣ t + W - t % W - 1 + 1
      rw [hN]
      exact n1
    · show t < t + W - t % W - 1 + 1
      omega
    · intro M hM1 hM2
      show t + W - t % W - 1 + 1 ≤ M
      rw [hN]
      exact n3 M hM1 hM2
    · intro h0
      show t + W - t % W - 1 = t + W - 1
      rw [h0]
      rfl
    · simp only [List.length_append, List.length_take, List.length_replicate, hl]
      omega
    · intro a ha1 ha2
      have ha2' : a ≤ t + W - t % W - 1 := ha2
      show (List.take (m.stack_bot - m.stack_top) old ++
        List.replicate (t + W - t % W - m.stack_bot) 0)[a - m.stack_top]? = some 0
      have hlen : (List.take (m.stack_bot - m.stack_top) old).length =
          m.stack_bot - m.stack_top := by
        rw [List.length_take, hl]
        omega
      rw [List.getElem?_append_right (by rw [hlen]; omega), hlen, List.getElem?_replicate]
      rw [if_pos (by omega)]

theorem grow_stack_bounds_and_fill_witness :
    ∃ m' buf, grow_stack 8 (fun _ => 170) (init_machine 0 8 4096 256 [] 256 260) 4104 =
        .ok m' ∧ m'.stack_top = 4096 ∧ 8 ∣ m'.stack_bot + 1 ∧ 4104 < m'.stack_bot + 1 ∧
      (∀ M, 8 ∣ M → 4104 < M → m'.stack_bot + 1 ≤ M) ∧
      (4104 % 8 = 0 → m'.stack_bot = 4104 + 8 - 1) ∧ m'.stack = some buf ∧
      buf.length = m'.stack_bot - m'.stack_top + 1 ∧
      ∀ a, 4103 < a → a ≤ m'.stack_bot → buf[a - m'.stack_top]? = some 0 :=
  (grow_stack_bounds_and_fill 8 (fun _ => 170) (init_machine 0 8 4096 256 [] 256 260)
    4104 (List.replicate 8 0) (by decide) (by decide) rfl (by decide) (by decide)
    (by decide)).2 (by decide)

/-! ## execute: nop, unhandled operations and branches -/

/-- C16: for an instruction whose operation code is nop, or is none of the
twelve codes that execute handles (so for ret, cmp, the conditional
branches and the sentinel code 0), execute returns the machine state as it
was. -/
theorem execute_unhandled (m : machine_t) (ins : instruction_t)
    (h : ins.operation = OPERATION_nop ∨
      ins.operation ∉ [OPERATION_nop, OPERATION_add, OPERATION_sub, OPERATION_lsl,
        OPERATION_lsr, OPERATION_and, OPERATION_orr, OPERATION_ldr, OPERATION_str,
        OPERATION_mov, OPERATION_b, OPERATION_bl]) :
    execute m ins = .ok m ∧
      (ins.operation ∈ [OPERATION_ret, OPERATION_cmp, OPERATION_bne, OPERATION_beq,
          OPERATION_blt, OPERATION_bgt, OPERATION_ble, OPERATION_bge, OPERATION_NULL] →
        execute m ins = .ok m) := by
  have key : ins.operation = OPERATION_nop ∨
      ins.operation ∉ [OPERATION_nop, OPERATION_add, OPERATION_sub, OPERATION_lsl,
        OPERATION_lsr, OPERATION_and, OPERATION_orr, OPERATION_ldr, OPERATION_str,
        OPERATION_mov, OPERATION_b, OPERATION_bl] → execute m ins = .ok m := by
    intro h
    rcases h with h | h
    · simp [execute, h]
    · simp only [List.mem_cons, List.mem_singleton, List.not_mem_nil, or_false, not_or] at h
      obtain ⟨h1, h2, h3, h4, h5, h6, h7, h8, h9, h10, h11, h12⟩ := h
      simp only [execute, h1, h2, h3, h4, h5, h6, h7, h8, h9, h10, h11, h12, if_false]
  refine ⟨key h, fun hm => key (Or.inr ?_)⟩
  simp only [List.mem_cons, List.mem_singleton, List.not_mem_nil, or_false] at hm
  rcases hm with hm | hm | hm | hm | hm | hm | hm | hm | hm <;> rw [hm] <;> decide

theorem execute_unhandled_witness :
    execute (init_machine 0 8 4096 256 [] 256 260) ⟨OPERATION_ret, fun _ => ⟨0, 0, 0, 0⟩⟩ =
      .ok (init_machine 0 8 4096 256 [] 256 260) :=
  (execute_unhandled (init_machine 0 8 4096 256 [] 256 260)
    ⟨OPERATION_ret, fun _ => ⟨0, 0, 0, 0⟩⟩ (Or.inr (by decide))).1

/-! ## execute: branches -/

theorem execute_branch (m : machine_t) (ins : instruction_t)
    (hop : ins.operation = OPERATION_b ∨ ins.operation = OPERATION_bl) (v : Nat)
    (hv : get_value m (ins.operands 0) = .ok v) : execute m ins = .ok { m with pc := v } := by
  rcases hop with h | h <;> simp [execute, h, hv]

theorem strtol_digits_hex (rest : List Nat) :
    ∀ (t : List Nat) (acc : Nat), (∀ c ∈ t, digit_value c < 16) →
      strtol_digits 16 (t ++ 0 :: rest) acc =
        some (t.foldl (fun acc c => acc * 16 + digit_value c) acc) := by
  intro t
  induction t with
  | nil => intro acc _; simp [strtol_digits, digit_value]
  | cons c cs ih =>
    intro acc h
    have hc := h c (List.mem_cons_self _ _)
    simp only [List.cons_append, strtol_digits, hc, if_true, List.foldl_cons]
    exact ih _ (fun d hd => h d (List.mem_cons_of_mem _ hd))

/-- The C library strtol in base 16 reads a string of hexadecimal digits
that starts with a decimal digit back. -/
theorem strtol_hex (t rest : List Nat) (ht : ∀ c ∈ t, digit_value c < 16)
    (hhead : ∃ c cs, t = c :: cs ∧ 48 ≤ c ∧ c ≤ 57) :
    strtol_ws 16 (t ++ 0 :: rest) = some (hex_value t : Int) := by
  obtain ⟨c, cs, rfl, h1, h2⟩ := hhead
  have hsp : isspace c = false := by
    simp only [isspace, Bool.or_eq_false_iff, beq_eq_false_iff_ne, Bool.and_eq_false_iff,
      decide_eq_false_iff_not]
    omega
  have hcs : ∀ d ∈ cs, digit_value d < 16 := fun d hd => ht d (List.mem_cons_of_mem _ hd)
  simp only [List.cons_append, strtol_ws, hsp, Bool.false_eq_true, if_false, strtol_signed,
    List.append_eq]
  rw [if_neg (by omega), if_neg (by omega)]
  by_cases h0 : c = 48
  · subst h0
    have hv : hex_value (48 :: cs) = cs.foldl (fun acc c => acc * 16 + digit_value c) 0 := by
      simp [hex_value, digit_value]
    have hx : ∀ x ds, cs ++ 0 :: rest = x :: ds → ¬ (x = 120 ∨ x = 88) := by
      intro x ds he
      cases cs with
      | nil =>
        simp only [List.nil_append, List.cons.injEq] at he
        omega
      | cons d ds' =>
        simp only [List.cons_append, List.cons.injEq] at he
        have hd := hcs d (List.mem_cons_self _ _)
        rw [he.1] at hd
        rintro (hx | hx) <;> rw [hx] at hd <;> revert hd <;> decide
    simp only [strtol_body, true_and, or_true, if_true]
    cases hcase : cs ++ 0 :: rest with
    | nil => cases cs <;> simp at hcase
    | cons x ds =>
      simp only [hx x ds hcase, if_false]
      rw [← hcase, if_neg (by decide), strtol_digits_hex rest cs 0 hcs, hv]
      rfl
  · simp only [strtol_body, h0, false_and, if_false]
    rw [if_neg (by decide)]
    have := strtol_digits_hex rest (c :: cs) 0 ht
    rw [List.cons_append] at this
    rw [this]
    rfl

/-- The operand decoded from a branch target written as hexadecimal digits:
an address operand whose field constant is the value modulo 2^32. -/
theorem parse_operand_address (operand : operand_t) (t rest : List Nat)
    (ht : ∀ c ∈ t, digit_value c < 16) (hhead : ∃ c cs, t = c :: cs ∧ 48 ≤ c ∧ c ≤ 57)
    (hv : hex_value t < 2 ^ 63) :
    parse_operand operand (t ++ 0 :: rest) =
      some (⟨OPERAND_address, 0, operand.reg_num, hex_value t % 2 ^ 32⟩, t ++ 0 :: rest) := by
  have hs := strtol_hex t rest ht hhead
  obtain ⟨c, cs, rfl, h1, h2⟩ := hhead
  have hcl : clamp_long (hex_value (c :: cs) : Int) = hex_value (c :: cs) := by
    unfold clamp_long
    rw [if_neg (by omega), if_neg (by omega)]
  have hu : uint32_of_int (int_of_long (hex_value (c :: cs) : Int)) =
      hex_value (c :: cs) % 2 ^ 32 := by
    unfold uint32_of_int int_of_long
    omega
  unfold parse_operand
  simp only [List.cons_append, List.getElem?_cons_zero, REGISTER_w, REGISTER_x, REGISTER_sp,
    REGISTER_pc, OPERAND_constant, OPERAND_memory]
  rw [if_neg (by omega), if_neg (by omega), if_neg (by omega), if_neg (by omega),
    if_pos ⟨h1, h2⟩]
  rw [List.cons_append] at hs
  simp only [strtol, hs, Option.map_some', hcl, hu]

/-- C17, the claim as stated fails: the branch target 100000000 (2^32 in
hexadecimal) decodes to an address operand with constant 0, and b sets pc
to 0, not to the hexadecimal value of the token. -/
theorem branch_target_truncated :
    ∃ op b m', parse_operand ⟨0, 0, 0, 0⟩ (cstr "100000000" ++ [0]) = some (op, b) ∧
      op.type = OPERAND_address ∧
      execute (init_machine 0 8 4096 256 [] 256 260) ⟨OPERATION_b, fun _ => op⟩ = .ok m' ∧
      m'.pc = 0 ∧ hex_value (cstr "100000000") = 4294967296 ∧
      m'.pc ≠ hex_value (cstr "100000000") := by
  refine ⟨⟨OPERAND_address, 0, 0, 0⟩, cstr "100000000" ++ [0], _, by decide, rfl,
    execute_branch _ _ (Or.inl rfl) 0 (by simp [get_value]), rfl, by decide, by decide⟩

/-- C17 as amended: for a b or bl instruction whose first operand resolves
by get_value to v, execute returns the old machine state with pc = v; every
general register (x30 too), sp, the condition flags, the stack and the code
are as before.  A token of hexadecimal digits that starts with a decimal
digit and whose value is below 2^32 decodes to an address operand, and with
it as first operand the new pc is that value. -/
theorem execute_branch_target (m : machine_t) (ins : instruction_t)
    (hop : ins.operation = OPERATION_b ∨ ins.operation = OPERATION_bl) :
    (∀ v, get_value m (ins.operands 0) = .ok v → execute m ins = .ok { m with pc := v }) ∧
      (∀ (operand : operand_t) (t : List Nat), (∀ c ∈ t, digit_value c < 16) →
        (∃ c cs, t = c :: cs ∧ 48 ≤ c ∧ c ≤ 57) → hex_value t < 2 ^ 32 →
        ∃ op b, parse_operand operand (t ++ [0]) = some (op, b) ∧
          op.type = OPERAND_address ∧
          (ins.operands 0 = op → execute m ins = .ok { m with pc := hex_value t })) := by
  refine ⟨fun v hv => execute_branch m ins hop v hv, ?_⟩
  intro operand t ht hhead hval
  have hp := parse_operand_address operand t [] ht hhead (by omega)
  rw [Nat.mod_eq_of_lt hval] at hp
  refine ⟨_, _, hp, rfl, fun h0 => ?_⟩
  apply execute_branch m ins hop
  rw [h0]
  simp [get_value]

theorem execute_branch_target_witness :
    ∃ op b, parse_operand ⟨1, 2, 3, 4⟩ (cstr "4005d4" ++ [0]) = some (op, b) ∧
      op.type = OPERAND_address ∧
      ((⟨OPERATION_bl, fun _ => ⟨OPERAND_address, 0, 3, 4195796⟩⟩ : instruction_t).operands 0
          = op →
        execute (init_machine 0 8 4096 256 [] 256 260)
            ⟨OPERATION_bl, fun _ => ⟨OPERAND_address, 0, 3, 4195796⟩⟩ =
          .ok { init_machine 0 8 4096 256 [] 256 260 with pc := hex_value (cstr "4005d4") }) :=
  (execute_branch_target (init_machine 0 8 4096 256 [] 256 260)
    ⟨OPERATION_bl, fun _ => ⟨OPERAND_address, 0, 3, 4195796⟩⟩ (Or.inr rfl)).2
    ⟨1, 2, 3, 4⟩ (cstr "4005d4") (by decide) ⟨52, cstr "005d4", by decide, by decide, by decide⟩
    (by decide)

/-! ## parse_file -/

/-- The two instruction lines of the dumps below are decoded, whatever the
array line holds after the terminator. -/
theorem parse_dump_lines (i : instruction_t) (junk : Nat → operand_t) (tail : List Nat) :
    (∃ ins, parse_instruction i junk (cstr "sub\tsp, sp, #0x20\n" ++ 0 :: tail) = .ok ins) ∧
      ∃ ins, parse_instruction i junk (cstr "ret\n" ++ 0 :: tail) = .ok ins := by
  have e1 : cstr "sub\tsp, sp, #0x20\n" = asm_line (fun p => if p = 0 then 9 else 32)
      (cstr "sub") [cstr "sp", cstr "sp", cstr "#0x20"] := by decide
  have e2 : cstr "ret\n" = asm_line (fun _ => 32) (cstr "ret") [] := by decide
  obtain ⟨i1, h1, -⟩ := parse_instruction_line i junk
    (fun p => if p = 0 then 9 else 32) (cstr "sub") [cstr "sp", cstr "sp", cstr "#0x20"]
    tail (by decide) (by intro p; by_cases h : p = 0 <;> simp [h, isspace])
    (by
      intro t ht
      simp only [List.mem_cons, List.mem_singleton, List.not_mem_nil, or_false] at ht
      rcases ht with rfl | rfl | rfl <;> exact Or.inl ⟨by decide, by decide⟩)
    (by
      intro t ht
      simp only [List.mem_cons, List.mem_singleton, List.not_mem_nil, or_false] at ht
      rcases ht with rfl | rfl | rfl <;> exact decodable_unbracketed _ (by decide))
    (by decide)
  obtain ⟨i2, h2, -⟩ := parse_instruction_line i junk
    (fun _ => 32) (cstr "ret") [] tail (by decide) (fun _ => rfl)
    (by intro t ht; simp at ht) (by intro t ht; simp at ht) (by decide)
  rw [← e1] at h1
  rw [← e2] at h2
  exact ⟨⟨i1, h1⟩, ⟨i2, h2⟩⟩

/-- C19 (the code departs from the claim): parse_file takes the value 0 of
*code_start for no address stored yet.  On a dump whose first instruction
line has the address 0 and whose second has the address 4, *code_start is
written again at the second line: parse_file returns with code_top = 4,
not 0 (and code_bot = 4, the stream being the two decoded lines and the
sentinel).  The same dump at the addresses 400580 and 400584 gives
code_top = 0x400580 and code_bot = 0x400584. -/
theorem parse_file_first_address_zero (instruction : Nat → instruction_t)
    (junk : Nat → Nat → operand_t) (stale : Nat → List Nat) (sentinel : instruction_t) :
    ∃ i1 i2,
      parse_instruction (instruction 2) (junk 2)
        (cstr "sub\tsp, sp, #0x20\n" ++ 0 :: stale 2) = .ok i1 ∧
      parse_instruction (instruction 3) (junk 3) (cstr "ret\n" ++ 0 :: stale 3) = .ok i2 ∧
      parse_file instruction junk stale sentinel
        [cstr "\n", cstr "0000000000000000 <main>:\n",
          cstr "   0:\td10083ff \tsub\tsp, sp, #0x20\n", cstr "   4:\td65f03c0 \tret\n"] 0 0 =
        .ok ([i1, i2, { sentinel with operation := OPERATION_NULL }], 4, 4) ∧
      parse_file instruction junk stale sentinel
        [cstr "\n", cstr "0000000000400580 <main>:\n",
          cstr "  400580:\td10083ff \tsub\tsp, sp, #0x20\n",
          cstr "  400584:\td65f03c0 \tret\n"] 0 0 =
        .ok ([i1, i2, { sentinel with operation := OPERATION_NULL }], 4195712, 4195716) := by
  obtain ⟨⟨i1, h1⟩, -⟩ := parse_dump_lines (instruction 2) (junk 2) (stale 2)
  obtain ⟨-, ⟨i2, h2⟩⟩ := parse_dump_lines (instruction 3) (junk 3) (stale 3)
  refine ⟨i1, i2, h1, h2, ?_⟩
  have c0 : cstr "\n" = [10] := by decide
  have c1 : cstr "0000000000000000 <main>:\n" =
      [48, 48, 48, 48, 48, 48, 48, 48, 48, 48, 48, 48, 48, 48, 48, 48, 32, 60, 109, 97, 105,
      110, 62, 58, 10] := by decide
  have c2 : cstr "   0:\td10083ff \tsub\tsp, sp, #0x20\n" =
      [32, 32, 32, 48, 58, 9, 100, 49, 48, 48, 56, 51, 102, 102, 32, 9, 115, 117, 98, 9, 115,
      112, 44, 32, 115, 112, 44, 32, 35, 48, 120, 50, 48, 10] := by decide
  have c3 : cstr "   4:\td65f03c0 \tret\n" =
      [32, 32, 32, 52, 58, 9, 100, 54, 53, 102, 48, 51, 99, 48, 32, 9, 114, 101, 116,
      10] := by decide
  have c4 : cstr "sub\tsp, sp, #0x20\n" =
      [115, 117, 98, 9, 115, 112, 44, 32, 115, 112, 44, 32, 35, 48, 120, 50, 48, 10] := by decide
  have c5 : cstr "ret\n" = [114, 101, 116, 10] := by decide
  have d1 : cstr "0000000000400580 <main>:\n" =
      [48, 48, 48, 48, 48, 48, 48, 48, 48, 48, 52, 48, 48, 53, 56, 48, 32, 60, 109, 97, 105,
      110, 62, 58, 10] := by decide
  have d2 : cstr "  400580:\td10083ff \tsub\tsp, sp, #0x20\n" =
      [32, 32, 52, 48, 48, 53, 56, 48, 58, 9, 100, 49, 48, 48, 56, 51, 102, 102, 32, 9, 115,
      117, 98, 9, 115, 112, 44, 32, 115, 112, 44, 32, 35, 48, 120, 50, 48, 10] := by decide
  have d3 : cstr "  400584:\td65f03c0 \tret\n" =
      [32, 32, 52, 48, 48, 53, 56, 52, 58, 9, 100, 54, 53, 102, 48, 51, 99, 48, 32, 9, 114, 101,
      116, 10] := by decide
  rw [c4] at h1
  rw [c5] at h2
  simp only [List.cons_append, List.nil_append] at h1 h2
  rw [parse_file, parse_file, c0, c1, c2, c3, d1, d2, d3]
  constructor <;>
  simp [parse_file_loop, strlen, scan_from, isspace, strtol, strtol_ws, strtol_signed,
    strtol_body, strtol_digits, digit_value, clamp_long, uint64_of_long, h1, h2]

/-! ## parse_instruction on lines that end with their last token -/

theorem trimmed_line_example :
    cstr "mov" ++ 32 :: trimmed_text (fun _ => 32) 0 ([cstr "x0"] ++ [cstr "#5"]) =
      cstr "mov x0, #5" := by
  decide

end ArmSim
